import Mathlib

/-!
# aifs: archives as directories

A shallow embedding of `aifs.go` and `virtualdir.go`.

* Go strings are `String`; a Go `error` is its `Error()` text.
* A Go result `(T, error)` whose value is unused on failure is `Except String T`;
  where the code reads both halves (`getIsDir`, `getKind`) it is a pair.
* The backing store, the zip decoder and the signature table of the content
  classifier are collaborators outside the repository: they are the fields of `Env`.
* A run-time panic (indexing an empty slice) is `none` in the result of `open`/`readDir`.
* The `for` loop of `sepFilePath` has no bound of its own: it is run with a bound
  `fuel` on its iterations, and `none` means that the `break` was not reached.
-/

namespace aifs

/-- Go's `error`: `none` is `nil`, `some msg` is an error whose text is `msg`. -/
abbrev error := Option String

/-- The part of `fs.FileInfo` the program can observe. -/
structure FileInfo where
  Name : String
  Size : Nat
  Mode : Nat
  IsDir : Bool
deriving DecidableEq

/-- An open `fs.File` handle: `Stat` is the result of `f.Stat()`, `Read n` the bytes
that one `f.Read(buf)` call with `len(buf) = n` delivers, and `ReaderAt` the bytes
reachable through `io.ReaderAt` when the handle implements it. -/
structure File where
  Stat : Except String FileInfo
  Read : Nat → List Nat
  ReaderAt : Option (List Nat)

/-- An `fs.DirEntry` value: either an entry of the backing listing, or the
`VirtualDir` struct of `virtualdir.go` embedding another entry. -/
inductive DirEntry where
  | entry (name : String) (isDir : Bool) (mode : Nat) (info : Except String FileInfo)
  | VirtualDir (DirEntry : DirEntry)

namespace DirEntry

/-- The promoted method `Name()`. -/
def Name : DirEntry → String
  | entry name _ _ _ => name
  | VirtualDir e => e.Name

/-- The method `IsDir()`: `VirtualDir` overrides it with the constant `true`. -/
def IsDir : DirEntry → Bool
  | entry _ isDir _ _ => isDir
  | VirtualDir _ => true

/-- The promoted method `Type()`. -/
def Type_ : DirEntry → Nat
  | entry _ _ mode _ => mode
  | VirtualDir e => e.Type_

/-- The promoted method `Info()`. -/
def Info : DirEntry → Except String FileInfo
  | entry _ _ _ info => info
  | VirtualDir e => e.Info

end DirEntry

/-- The struct `types.Type` of the classifier library. -/
structure Kind where
  MIME : String
  Extension : String
deriving DecidableEq

/-- The value `types.Unknown`. -/
def types.Unknown : Kind := ⟨"", "unknown"⟩

/-- The value `matchers.TypeZip`. -/
def matchers.TypeZip : Kind := ⟨"application/zip", "zip"⟩

/-- The collaborators of the resolver, over a type `FSys` of filesystem views
(`fs.FS` values): `Open` is `fsys.Open(name)`, `ReadDir` is `fs.ReadDir(fsys, name)`,
`zip_NewReader` is `zip.NewReader(r, size)` and `Matchers` the signature table that
`filetype.Match` consults on a non-empty buffer. -/
structure Env (FSys : Type) where
  Open : FSys → String → Except String File
  ReadDir : FSys → String → Except String (List DirEntry)
  zip_NewReader : List Nat → Nat → Except String FSys
  Matchers : List Nat → Kind

variable {FSys : Type}

/-- The library function `filetype.Match`: an empty buffer is the only error. -/
def filetype.Match (E : Env FSys) (buf : List Nat) : Kind × error :=
  if buf.length = 0 then (types.Unknown, some "Empty buffer")
  else (E.Matchers buf, none)

/-- The buffer `buf` after one `f.Read(buf)`: the delivered bytes overwrite its front. -/
def readInto (f : File) (buf : List Nat) : List Nat :=
  let got := (f.Read buf.length).take buf.length
  got ++ buf.drop got.length

/-- The helper `zipNewReader`. -/
def zipNewReader (E : Env FSys) (fsys : FSys) (name : String) : Except String FSys :=
  match E.Open fsys name with
  | .error err => .error err
  | .ok f =>
    match f.Stat with
    | .error err => .error err
    | .ok s =>
      match f.ReaderAt with
      | none => .error ("could not " ++ name ++ " as io.ReaderAt")
      | some r => E.zip_NewReader r s.Size

/-- The helper `getIsDir`. -/
def getIsDir (E : Env FSys) (fsys : FSys) (name : String) : Bool × error :=
  match E.Open fsys name with
  | .error err => (false, some ("could not open " ++ name ++ ": " ++ err))
  | .ok f =>
    match f.Stat with
    | .error err => (false, some ("could not get stat " ++ name ++ ": " ++ err))
    | .ok info => (info.IsDir, none)

/-- The helper `getKind`. -/
def getKind (E : Env FSys) (fsys : FSys) (name : String) : Kind × error :=
  match E.Open fsys name with
  | .error err => (types.Unknown, some ("could not open " ++ name ++ ": " ++ err))
  | .ok f => filetype.Match E (readInto f (List.replicate 261 0))

/-- The loop body of `readDirWrapper` for one entry. -/
def wrapEntry (E : Env FSys) (fsys : FSys) (name : String) (entry : DirEntry) : DirEntry :=
  if entry.IsDir then entry
  else if (getKind E fsys (name ++ "/" ++ entry.Name)).1 = matchers.TypeZip then
    DirEntry.VirtualDir entry
  else entry

/-- The function `readDirWrapper`. -/
def readDirWrapper (E : Env FSys) (fsys : FSys) (name : String) :
    Except String (List DirEntry) :=
  match E.ReadDir fsys name with
  | .error err => .error err
  | .ok entries => .ok (entries.map (wrapEntry E fsys name))

/-- The method `FS.open`. -/
def FS.open (E : Env FSys) : FSys → List String → Option (Except String File)
  | _, [] => none
  | currentFS, [p0] =>
    match getIsDir E currentFS p0 with
    | (_, some err) => some (.error err)
    | (true, none) => some (E.Open currentFS p0)
    | (false, none) =>
      match getKind E currentFS p0 with
      | (_, some err) => some (.error err)
      | (kind, none) =>
        if kind = matchers.TypeZip then
          match zipNewReader E currentFS p0 with
          | .error err => some (.error ("could not zip as reader: " ++ err))
          | .ok zr => some (E.Open zr ".")
        else some (E.Open currentFS p0)
  | currentFS, p0 :: p1 :: rest =>
    match getIsDir E currentFS p0 with
    | (_, some err) => some (.error err)
    | (true, none) => FS.open E currentFS ((p0 ++ "/" ++ p1) :: rest)
    | (false, none) =>
      match getKind E currentFS p0 with
      | (_, some err) => some (.error ("could not find kind " ++ p0 ++ ": " ++ err))
      | (kind, none) =>
        if kind = matchers.TypeZip then
          match zipNewReader E currentFS p0 with
          | .error err => some (.error ("could not zip as reader: " ++ err))
          | .ok zr => FS.open E zr (p1 :: rest)
        else some (.error ("could not open " ++ p0 ++ " as directory"))
termination_by _ paths => paths.length

/-- The method `FS.readDir`. -/
def FS.readDir (E : Env FSys) : FSys → List String → Option (Except String (List DirEntry))
  | _, [] => none
  | currentFS, [p0] =>
    match getIsDir E currentFS p0 with
    | (_, some err) => some (.error err)
    | (true, none) => some (readDirWrapper E currentFS p0)
    | (false, none) =>
      match getKind E currentFS p0 with
      | (_, some err) => some (.error err)
      | (kind, none) =>
        if kind = matchers.TypeZip then
          match zipNewReader E currentFS p0 with
          | .error err => some (.error ("could not zip as reader: " ++ err))
          | .ok zr => some (readDirWrapper E zr ".")
        else some (readDirWrapper E currentFS p0)
  | currentFS, p0 :: p1 :: rest =>
    match getIsDir E currentFS p0 with
    | (_, some err) => some (.error err)
    | (true, none) => FS.readDir E currentFS ((p0 ++ "/" ++ p1) :: rest)
    | (false, none) =>
      match getKind E currentFS p0 with
      | (_, some err) => some (.error ("could not find kind " ++ p0 ++ ": " ++ err))
      | (kind, none) =>
        if kind = matchers.TypeZip then
          match zipNewReader E currentFS p0 with
          | .error err => some (.error ("could not zip as reader: " ++ err))
          | .ok zr => FS.readDir E zr (p1 :: rest)
        else some (.error ("could not open " ++ p0 ++ " as directory"))
termination_by _ paths => paths.length

/-! ## Path segmentation

`path/filepath` for a Unix target (separator `/`, no volume names), on the
characters of the path. -/

/-- The inner loop of the `..` case of `filepath.Clean`: starting from write index
`w`, step back while `w > dotdot` and the byte at `w` is not a separator. -/
def filepath.backtrack (buf : List Char) (dotdot : Nat) : Nat → Nat
  | 0 => 0
  | w + 1 =>
    if dotdot < w + 1 ∧ buf.getD (w + 1) '/' ≠ '/' then filepath.backtrack buf dotdot w
    else w + 1

/-- The main loop of `filepath.Clean` over the unread input `path[r:]`, with the
output written so far and the index `dotdot`. The flag is `true` while the copy
loop of a real path element is running. -/
def filepath.cleanLoop (rooted : Bool) : Bool → List Char → List Char → Nat → List Char
  | _, [], out, _ => out
  | true, c :: rest, out, dotdot =>
    if c = '/' then filepath.cleanLoop rooted false rest out dotdot
    else filepath.cleanLoop rooted true rest (out ++ [c]) dotdot
  | false, c :: rest, out, dotdot =>
    if c = '/' then
      -- empty path element
      filepath.cleanLoop rooted false rest out dotdot
    else if c = '.' ∧ (rest = [] ∨ rest.head? = some '/') then
      -- . element
      filepath.cleanLoop rooted false rest out dotdot
    else
      match rest with
      | c1 :: rest2 =>
        if c = '.' ∧ c1 = '.' ∧ (rest2 = [] ∨ rest2.head? = some '/') then
          -- .. element: remove to last separator
          if dotdot < out.length then
            filepath.cleanLoop rooted false rest2
              (out.take (filepath.backtrack out dotdot (out.length - 1))) dotdot
          else if !rooted then
            let out1 := (if 0 < out.length then out ++ ['/'] else out) ++ ['.', '.']
            filepath.cleanLoop rooted false rest2 out1 out1.length
          else filepath.cleanLoop rooted false rest2 out dotdot
        else
          -- real path element: add slash if needed, copy element
          let out1 :=
            if (rooted ∧ out.length ≠ 1) ∨ (!rooted ∧ out.length ≠ 0) then out ++ ['/'] else out
          filepath.cleanLoop rooted true (c1 :: rest2) (out1 ++ [c]) dotdot
      | [] =>
        let out1 :=
          if (rooted ∧ out.length ≠ 1) ∨ (!rooted ∧ out.length ≠ 0) then out ++ ['/'] else out
        filepath.cleanLoop rooted true [] (out1 ++ [c]) dotdot

/-- The library function `filepath.Clean` on characters. -/
def filepath.cleanChars (path : List Char) : List Char :=
  if path = [] then ['.']
  else
    let rooted : Bool := path.head? = some '/'
    let out :=
      if rooted then filepath.cleanLoop rooted false path.tail ['/'] 1
      else filepath.cleanLoop rooted false path [] 0
    if out.length = 0 then ['.'] else out

/-- The library function `filepath.Clean`. -/
def filepath.Clean (path : String) : String :=
  ⟨filepath.cleanChars path.data⟩

/-- The library function `filepath.Base`. -/
def filepath.Base (path : String) : String :=
  if path = "" then "."
  else
    -- strip trailing slashes
    let p := (path.data.reverse.dropWhile (· = '/')).reverse
    -- find the last element
    let p := (p.reverse.takeWhile (· ≠ '/')).reverse
    -- if empty now, it had only slashes
    if p = [] then "/" else ⟨p⟩

/-- The library function `filepath.Dir`. -/
def filepath.Dir (path : String) : String :=
  -- path[:i+1] where i is the index of the last separator
  ⟨filepath.cleanChars (path.data.reverse.dropWhile (· ≠ '/')).reverse⟩

/-- The `for` loop of `sepFilePath`, run for at most `fuel` iterations: `none` when
the `break` is not reached within them. -/
def sepFilePath.loop : Nat → String → List String → Option (List String)
  | 0, _, _ => none
  | fuel + 1, name, ret =>
    let base := filepath.Base name
    let name := filepath.Dir name
    if base = "." then some ret
    else sepFilePath.loop fuel name (ret ++ [base])

/-- The function `sepFilePath`, with a bound on the iterations of its loop. -/
def sepFilePath (fuel : Nat) (name : String) : Option (List String) :=
  match sepFilePath.loop fuel name [] with
  | none => none
  | some ret =>
    let ret := if ret.length = 0 then ret ++ ["."] else ret
    some ret.reverse

/-! ### Cleaned relative paths, by components -/

/-- The components of a path joined by the separator. -/
def joinSlash : List (List Char) → List Char
  | [] => []
  | [c] => c
  | c :: c2 :: cs => c ++ '/' :: joinSlash (c2 :: cs)

/-- A path element that `Clean` keeps as it is: non-empty, free of separators and
neither `.` nor `..`. -/
def IsName (c : List Char) : Prop :=
  c ≠ [] ∧ '/' ∉ c ∧ c ≠ ['.'] ∧ c ≠ ['.', '.']

instance : DecidablePred IsName := fun c => by unfold IsName; infer_instance

/-- The output unchanged when empty, followed by a separator otherwise. -/
def withSep (out : List Char) : List Char :=
  if 0 < out.length then out ++ ['/'] else out

/-- The separator that precedes a real path element in `Clean`. -/
def elemSep (r : Bool) (out : List Char) : List Char :=
  if (r = true ∧ out.length ≠ 1) ∨ ((!r) = true ∧ out.length ≠ 0) then out ++ ['/'] else out

/-- The components `..` repeated `k` times. -/
def dotdots (k : Nat) : List (List Char) := List.replicate k ['.', '.']

/-- The components of a cleaned relative path other than `.`: some `..` elements
followed by names. -/
def NormalComps (comps : List (List Char)) : Prop :=
  ∃ k names, comps = dotdots k ++ names ∧ ∀ c ∈ names, IsName c

/-- The path whose components are `comps`: `.` when there are none. -/
def pathOf (comps : List (List Char)) : String :=
  if comps = [] then "." else ⟨joinSlash comps⟩

/-- The method `FS.Open`: the outer `none` is a segmentation loop that has not
ended within `fuel` iterations. -/
def FS.Open (E : Env FSys) (aifs : FSys) (fuel : Nat) (name : String) :
    Option (Option (Except String File)) :=
  (sepFilePath fuel (filepath.Clean name)).map (FS.open E aifs)

/-- The method `FS.ReadDir`, as `FS.Open`. -/
def FS.ReadDir (E : Env FSys) (aifs : FSys) (fuel : Nat) (name : String) :
    Option (Option (Except String (List DirEntry))) :=
  (sepFilePath fuel (filepath.Clean name)).map (FS.readDir E aifs)

/-- The traversal that `open` and `readDir` have in common, up to the point where
the target is located: the view and the name on which the terminal action runs
(`Open` for `open`, `readDirWrapper` for `readDir`). -/
def resolve (E : Env FSys) : FSys → List String → Option (Except String (FSys × String))
  | _, [] => none
  | currentFS, [p0] =>
    match getIsDir E currentFS p0 with
    | (_, some err) => some (.error err)
    | (true, none) => some (.ok (currentFS, p0))
    | (false, none) =>
      match getKind E currentFS p0 with
      | (_, some err) => some (.error err)
      | (kind, none) =>
        if kind = matchers.TypeZip then
          match zipNewReader E currentFS p0 with
          | .error err => some (.error ("could not zip as reader: " ++ err))
          | .ok zr => some (.ok (zr, "."))
        else some (.ok (currentFS, p0))
  | currentFS, p0 :: p1 :: rest =>
    match getIsDir E currentFS p0 with
    | (_, some err) => some (.error err)
    | (true, none) => resolve E currentFS ((p0 ++ "/" ++ p1) :: rest)
    | (false, none) =>
      match getKind E currentFS p0 with
      | (_, some err) => some (.error ("could not find kind " ++ p0 ++ ": " ++ err))
      | (kind, none) =>
        if kind = matchers.TypeZip then
          match zipNewReader E currentFS p0 with
          | .error err => some (.error ("could not zip as reader: " ++ err))
          | .ok zr => resolve E zr (p1 :: rest)
        else some (.error ("could not open " ++ p0 ++ " as directory"))
termination_by _ paths => paths.length

/-! ## A concrete store: a directory tree holding archives

The store follows the `io/fs` contract: `Open` rejects every name that is not a
valid path, as `os.DirFS` and `zip.Reader` do. View `0` is the backing directory,
view `1` the decoded content of `root.zip`. -/

/-- The element loop of `fs.ValidPath`: `elem` is the element read so far. -/
def fs.validElems : List Char → List Char → Bool
  | elem, [] => elem ≠ [] && elem ≠ ['.'] && elem ≠ ['.', '.']
  | elem, c :: cs =>
    if c = '/' then (elem ≠ [] && elem ≠ ['.'] && elem ≠ ['.', '.']) && fs.validElems [] cs
    else fs.validElems (elem ++ [c]) cs

/-- The library function `fs.ValidPath` on valid UTF-8 text. -/
def fs.ValidPath (name : String) : Bool :=
  name = "." || fs.validElems [] name.data

/-- The zip signature of the classifier's table. -/
def demo.Matchers (buf : List Nat) : Kind :=
  if 3 < buf.length ∧ buf.getD 0 0 = 0x50 ∧ buf.getD 1 0 = 0x4B ∧
      (buf.getD 2 0 = 0x3 ∨ buf.getD 2 0 = 0x5 ∨ buf.getD 2 0 = 0x7) ∧
      (buf.getD 3 0 = 0x4 ∨ buf.getD 3 0 = 0x6 ∨ buf.getD 3 0 = 0x8) then matchers.TypeZip
  else types.Unknown

/-- A handle on a directory. -/
def demo.dirFile (name : String) : File :=
  { Stat := .ok ⟨name, 0, 0x80000000, true⟩, Read := fun _ => [], ReaderAt := some [] }

/-- A handle on a regular file with the given bytes. -/
def demo.regFile (name : String) (bytes : List Nat) : File :=
  { Stat := .ok ⟨name, bytes.length, 0, false⟩, Read := fun n => bytes.take n,
    ReaderAt := some bytes }

/-- The bytes of `root.zip`. -/
def demo.zipBytes : List Nat := [0x50, 0x4B, 0x3, 0x4, 0x14, 0, 0, 0]

/-- The bytes of `cat1744.jpg`. -/
def demo.jpgBytes : List Nat := [0xFF, 0xD8, 0xFF, 0xE0]

/-- The names each view can open. -/
def demo.lookup : Nat → String → Option File
  | 0, "." => some (demo.dirFile ".")
  | 0, "cat1" => some (demo.dirFile "cat1")
  | 0, "cat1/cat2" => some (demo.dirFile "cat2")
  | 0, "cat1/inner.zip" => some (demo.regFile "inner.zip" demo.zipBytes)
  | 0, "note.txt" => some (demo.regFile "note.txt" [0x68, 0x69])
  | 0, "root.zip" => some (demo.regFile "root.zip" demo.zipBytes)
  | 1, "." => some (demo.dirFile ".")
  | 1, "cat1744.jpg" => some (demo.regFile "cat1744.jpg" demo.jpgBytes)
  | _, _ => none

/-- Opening a name in a view of the demo store. -/
def demo.Open (v : Nat) (name : String) : Except String File :=
  if fs.ValidPath name then
    match demo.lookup v name with
    | some f => .ok f
    | none => .error ("open " ++ name ++ ": file does not exist")
  else .error ("open " ++ name ++ ": invalid argument")

/-- A listing entry for a regular file. -/
def demo.regEntry (name : String) (size : Nat) : DirEntry :=
  .entry name false 0 (.ok ⟨name, size, 0, false⟩)

/-- A listing entry for a directory. -/
def demo.dirEntry (name : String) : DirEntry :=
  .entry name true 0x80000000 (.ok ⟨name, 0, 0x80000000, true⟩)

/-- The listings of the demo store. -/
def demo.ReadDir : Nat → String → Except String (List DirEntry)
  | 0, "." => .ok [demo.dirEntry "cat1", demo.regEntry "note.txt" 2, demo.regEntry "root.zip" 8]
  | 0, "cat1" => .ok [demo.dirEntry "cat2", demo.regEntry "inner.zip" 8]
  | 0, "cat1/cat2" => .ok []
  | 1, "." => .ok [demo.regEntry "cat1744.jpg" 4]
  | _, name => .error ("readdir " ++ name ++ ": not a directory")

/-- The archive decoder of the demo store. -/
def demo.zip_NewReader (r : List Nat) (size : Nat) : Except String Nat :=
  if r = demo.zipBytes ∧ size = 8 then .ok 1 else .error "zip: not a valid zip file"

/-- The demo store as an environment. -/
def demo.env : Env Nat :=
  { Open := demo.Open, ReadDir := demo.ReadDir, zip_NewReader := demo.zip_NewReader,
    Matchers := demo.Matchers }

/-! ## Instrumented traversals -/

/-- How an invocation of `open` or `readDir` was made: by `Open`/`ReadDir`, by the
directory-merge step, or by the archive step. -/
inductive CallKind where
  | initial
  | dirMerge
  | archive
deriving DecidableEq

/-- One invocation of `open` or `readDir`: how it was made and its two arguments. -/
structure Call (FSys : Type) where
  kind : CallKind
  currentFS : FSys
  paths : List String

/-- The body that `FS.open` and `FS.readDir` have in common, with the terminal
action `term` (`Open` for `open`, `readDirWrapper` for `readDir`) as a parameter,
returning next to the result the invocations made, the outermost first. -/
def FS.walk {α : Type} (E : Env FSys) (term : FSys → String → Except String α) :
    CallKind → FSys → List String → Option (Except String α) × List (Call FSys)
  | k, currentFS, [] => (none, [⟨k, currentFS, []⟩])
  | k, currentFS, [p0] =>
    (match getIsDir E currentFS p0 with
      | (_, some err) => some (.error err)
      | (true, none) => some (term currentFS p0)
      | (false, none) =>
        match getKind E currentFS p0 with
        | (_, some err) => some (.error err)
        | (kind, none) =>
          if kind = matchers.TypeZip then
            match zipNewReader E currentFS p0 with
            | .error err => some (.error ("could not zip as reader: " ++ err))
            | .ok zr => some (term zr ".")
          else some (term currentFS p0),
      [⟨k, currentFS, [p0]⟩])
  | k, currentFS, p0 :: p1 :: rest =>
    match getIsDir E currentFS p0 with
    | (_, some err) => (some (.error err), [⟨k, currentFS, p0 :: p1 :: rest⟩])
    | (true, none) =>
      let r := FS.walk E term .dirMerge currentFS ((p0 ++ "/" ++ p1) :: rest)
      (r.1, ⟨k, currentFS, p0 :: p1 :: rest⟩ :: r.2)
    | (false, none) =>
      match getKind E currentFS p0 with
      | (_, some err) =>
        (some (.error ("could not find kind " ++ p0 ++ ": " ++ err)),
          [⟨k, currentFS, p0 :: p1 :: rest⟩])
      | (kind, none) =>
        if kind = matchers.TypeZip then
          match zipNewReader E currentFS p0 with
          | .error err =>
            (some (.error ("could not zip as reader: " ++ err)),
              [⟨k, currentFS, p0 :: p1 :: rest⟩])
          | .ok zr =>
            let r := FS.walk E term .archive zr (p1 :: rest)
            (r.1, ⟨k, currentFS, p0 :: p1 :: rest⟩ :: r.2)
        else
          (some (.error ("could not open " ++ p0 ++ " as directory")),
            [⟨k, currentFS, p0 :: p1 :: rest⟩])
termination_by _ _ paths => paths.length

/-- The body that `FS.open` and `FS.readDir` have in common, on Go slices: the
argument `paths` is the part from index `off` on of the backing array `mem`, so
that `paths[1] = ...` writes into `mem` and `paths[1:]` is the same array from
`off + 1` on. Next to the result, the backing array when the call returns. -/
def FS.walkInPlace {α : Type} (E : Env FSys) (term : FSys → String → Except String α)
    (currentFS : FSys) (mem : List String) (off : Nat) :
    Option (Except String α) × List String :=
  if mem.length ≤ off then (none, mem)
  else if off + 1 = mem.length then
    (match getIsDir E currentFS (mem.getD off "") with
      | (_, some err) => some (.error err)
      | (true, none) => some (term currentFS (mem.getD off ""))
      | (false, none) =>
        match getKind E currentFS (mem.getD off "") with
        | (_, some err) => some (.error err)
        | (kind, none) =>
          if kind = matchers.TypeZip then
            match zipNewReader E currentFS (mem.getD off "") with
            | .error err => some (.error ("could not zip as reader: " ++ err))
            | .ok zr => some (term zr ".")
          else some (term currentFS (mem.getD off "")),
      mem)
  else
    match getIsDir E currentFS (mem.getD off "") with
    | (_, some err) => (some (.error err), mem)
    | (true, none) =>
      FS.walkInPlace E term currentFS
        (mem.set (off + 1) (mem.getD off "" ++ "/" ++ mem.getD (off + 1) "")) (off + 1)
    | (false, none) =>
      match getKind E currentFS (mem.getD off "") with
      | (_, some err) =>
        (some (.error ("could not find kind " ++ mem.getD off "" ++ ": " ++ err)), mem)
      | (kind, none) =>
        if kind = matchers.TypeZip then
          match zipNewReader E currentFS (mem.getD off "") with
          | .error err => (some (.error ("could not zip as reader: " ++ err)), mem)
          | .ok zr => FS.walkInPlace E term zr mem (off + 1)
        else (some (.error ("could not open " ++ mem.getD off "" ++ " as directory")), mem)
termination_by mem.length - off
decreasing_by
  all_goals simp_wf
  all_goals omega

/-- The demo store with a lister that answers every name, directory or not, with
an empty listing. -/
def lax.env : Env Nat :=
  { Open := demo.Open, ReadDir := fun _ _ => .ok [], zip_NewReader := demo.zip_NewReader,
    Matchers := demo.Matchers }

/-! ## Resolution -/

set_option maxRecDepth 8192

/-- One `Read` leaves the length of the buffer unchanged. -/
theorem readInto_length (f : File) (buf : List Nat) :
    (readInto f buf).length = buf.length := by
  simp only [readInto, List.length_append, List.length_drop, List.length_take]
  omega

/-- When the stat of a name succeeds, its classification does not fail. -/
theorem getKind_ok_of_getIsDir_ok (E : Env FSys) (V : FSys) (s : String) (b : Bool)
    (h : getIsDir E V s = (b, none)) : (getKind E V s).2 = none := by
  unfold getIsDir at h
  unfold getKind
  cases hO : E.Open V s with
  | error e => simp [hO] at h
  | ok f =>
    simp only [filetype.Match, readInto_length, List.length_replicate]
    simp

/-- Unfolding of `FS.open` at two or more segments whose first is a directory. -/
theorem open_dir_step (E : Env FSys) (V : FSys) (p0 p1 : String) (rest : List String)
    (h : getIsDir E V p0 = (true, none)) :
    FS.open E V (p0 :: p1 :: rest) = FS.open E V ((p0 ++ "/" ++ p1) :: rest) := by
  rw [FS.open]
  simp [h]

/-- Unfolding of `FS.readDir` at two or more segments whose first is a directory. -/
theorem readDir_dir_step (E : Env FSys) (V : FSys) (p0 p1 : String) (rest : List String)
    (h : getIsDir E V p0 = (true, none)) :
    FS.readDir E V (p0 :: p1 :: rest) = FS.readDir E V ((p0 ++ "/" ++ p1) :: rest) := by
  rw [FS.readDir]
  simp [h]

/-- C1. Opening a single segment that is a non-directory file classified as a zip
archive, on which the archive opener yields the view `Z`, returns the result of
opening the root `.` of `Z`, not the result of opening the file in `V`. -/
theorem open_terminal_archive_root (E : Env FSys) (V Z : FSys) (s : String)
    (hdir : getIsDir E V s = (false, none))
    (hkind : getKind E V s = (matchers.TypeZip, none))
    (hzip : zipNewReader E V s = .ok Z) :
    FS.open E V [s] = some (E.Open Z ".") ∧
      (E.Open Z "." ≠ E.Open V s → FS.open E V [s] ≠ some (E.Open V s)) := by
  have h : FS.open E V [s] = some (E.Open Z ".") := by
    simp [FS.open, hdir, hkind, hzip]
  exact ⟨h, fun hne heq => hne (Option.some.inj (h.symm.trans heq))⟩

/-- C1 at `root.zip` of the demo store. -/
theorem open_terminal_archive_root_witness :
    FS.open demo.env 0 ["root.zip"] = some (demo.env.Open 1 ".") ∧
      (demo.env.Open 1 "." ≠ demo.env.Open 0 "root.zip" →
        FS.open demo.env 0 ["root.zip"] ≠ some (demo.env.Open 0 "root.zip")) :=
  open_terminal_archive_root demo.env 0 1 "root.zip" rfl rfl rfl

/-- C2. When the first of two or more segments is a non-directory file classified
as a zip archive and the archive opener yields the view `Z`, both `open` and `readDir`
continue in `Z` with the remaining segments only. -/
theorem archive_crossing_uses_remaining_segments (E : Env FSys) (V Z : FSys) (s : String)
    (rest : List String) (hrest : rest ≠ [])
    (hdir : getIsDir E V s = (false, none))
    (hkind : getKind E V s = (matchers.TypeZip, none))
    (hzip : zipNewReader E V s = .ok Z) :
    FS.open E V (s :: rest) = FS.open E Z rest ∧
      FS.readDir E V (s :: rest) = FS.readDir E Z rest := by
  cases rest with
  | nil => exact absurd rfl hrest
  | cons p1 rest =>
    constructor
    · rw [FS.open]; simp [hdir, hkind, hzip]
    · rw [FS.readDir]; simp [hdir, hkind, hzip]

/-- C2 at `root.zip/cat1744.jpg` of the demo store. -/
theorem archive_crossing_uses_remaining_segments_witness :
    FS.open demo.env 0 ["root.zip", "cat1744.jpg"] = FS.open demo.env 1 ["cat1744.jpg"] ∧
      FS.readDir demo.env 0 ["root.zip", "cat1744.jpg"] =
        FS.readDir demo.env 1 ["cat1744.jpg"] :=
  archive_crossing_uses_remaining_segments demo.env 0 1 "root.zip" ["cat1744.jpg"]
    (by simp) rfl rfl rfl

/-- Traversal through directories only, with the path joined so far as accumulator. -/
theorem open_dirs_go (E : Env FSys) (V : FSys) (rest : List String) :
    ∀ p0 : String,
      (∀ i, i ≤ rest.length →
        getIsDir E V (String.intercalate.go p0 "/" (rest.take i)) = (true, none)) →
      FS.open E V (p0 :: rest) = some (E.Open V (String.intercalate.go p0 "/" rest)) := by
  induction rest with
  | nil =>
    intro p0 h
    have h0 := h 0 (Nat.le_refl 0)
    simp only [List.take_nil, String.intercalate.go] at h0
    rw [FS.open]
    simp [h0, String.intercalate.go]
  | cons p1 rest ih =>
    intro p0 h
    have h0 := h 0 (Nat.zero_le _)
    simp only [List.take_zero, String.intercalate.go] at h0
    rw [open_dir_step E V p0 p1 rest h0, String.intercalate.go]
    apply ih
    intro i hi
    have := h (i + 1) (by simpa using hi)
    simpa [String.intercalate.go] using this

/-- C3. When every joined prefix `s1/../si` of a non-empty segment list is a
directory of `V`, `open` returns the result of opening the joined path
`s1/../sn` in `V`. -/
theorem open_through_directories (E : Env FSys) (V : FSys) (segs : List String)
    (hne : segs ≠ [])
    (hdirs : ∀ i, 1 ≤ i → i ≤ segs.length →
      getIsDir E V ("/".intercalate (segs.take i)) = (true, none)) :
    FS.open E V segs = some (E.Open V ("/".intercalate segs)) := by
  cases segs with
  | nil => exact absurd rfl hne
  | cons s1 rest =>
    have := open_dirs_go E V rest s1 (by
      intro i hi
      have := hdirs (i + 1) (by omega) (by simpa using hi)
      simpa [String.intercalate] using this)
    simpa [String.intercalate] using this

/-- C3 at `cat1/cat2` of the demo store. -/
theorem open_through_directories_witness :
    FS.open demo.env 0 ["cat1", "cat2"] = some (demo.env.Open 0 "cat1/cat2") :=
  open_through_directories demo.env 0 ["cat1", "cat2"] (by simp) (by
    intro i h1 h2
    have h2 : i ≤ 2 := h2
    have hi : i = 1 ∨ i = 2 := by omega
    rcases hi with rfl | rfl <;> rfl)

/-- C7. When the first of two or more segments is a non-directory file that is not
classified as a zip archive, both `open` and `readDir` fail with the error
`could not open s as directory`. -/
theorem plain_file_with_trailing_segments_fails (E : Env FSys) (V : FSys) (s : String)
    (rest : List String) (hrest : rest ≠ [])
    (hdir : getIsDir E V s = (false, none))
    (hkind : (getKind E V s).1 ≠ matchers.TypeZip) :
    FS.open E V (s :: rest) = some (.error ("could not open " ++ s ++ " as directory")) ∧
      FS.readDir E V (s :: rest) =
        some (.error ("could not open " ++ s ++ " as directory")) := by
  have hok := getKind_ok_of_getIsDir_ok E V s false hdir
  cases hk : getKind E V s with
  | mk kind err =>
    rw [hk] at hok hkind
    simp only at hok hkind
    subst hok
    cases rest with
    | nil => exact absurd rfl hrest
    | cons p1 rest =>
      constructor
      · rw [FS.open]; simp [hdir, hk, hkind]
      · rw [FS.readDir]; simp [hdir, hk, hkind]

/-- C7 at `note.txt/x` of the demo store. -/
theorem plain_file_with_trailing_segments_fails_witness :
    FS.open demo.env 0 ["note.txt", "x"] =
        some (.error ("could not open " ++ "note.txt" ++ " as directory")) ∧
      FS.readDir demo.env 0 ["note.txt", "x"] =
        some (.error ("could not open " ++ "note.txt" ++ " as directory")) :=
  plain_file_with_trailing_segments_fails demo.env 0 "note.txt" ["x"] (by simp) rfl
    (by decide)

/-- C8. When the first segment `s` cannot be opened, or its handle cannot be
stat-ed, `open` and `readDir` both return the error of that step, whose text
contains `s`, whatever the later segments are. -/
theorem first_segment_error_propagates (E : Env FSys) (V : FSys) (s err : String)
    (h : E.Open V s = .error err ∨ ∃ f, E.Open V s = .ok f ∧ f.Stat = .error err) :
    ∃ pre : String, (pre = "could not open " ∨ pre = "could not get stat ") ∧
      ∀ rest : List String,
        FS.open E V (s :: rest) = some (.error (pre ++ s ++ ": " ++ err)) ∧
        FS.readDir E V (s :: rest) = some (.error (pre ++ s ++ ": " ++ err)) := by
  rcases h with h | ⟨f, hf, hs⟩
  · refine ⟨"could not open ", Or.inl rfl, fun rest => ?_⟩
    have hd : getIsDir E V s = (false, some ("could not open " ++ s ++ ": " ++ err)) := by
      simp [getIsDir, h]
    cases rest with
    | nil => constructor
             · rw [FS.open]; simp [hd]
             · rw [FS.readDir]; simp [hd]
    | cons p1 rest => constructor
                      · rw [FS.open]; simp [hd]
                      · rw [FS.readDir]; simp [hd]
  · refine ⟨"could not get stat ", Or.inr rfl, fun rest => ?_⟩
    have hd : getIsDir E V s = (false, some ("could not get stat " ++ s ++ ": " ++ err)) := by
      simp [getIsDir, hf, hs]
    cases rest with
    | nil => constructor
             · rw [FS.open]; simp [hd]
             · rw [FS.readDir]; simp [hd]
    | cons p1 rest => constructor
                      · rw [FS.open]; simp [hd]
                      · rw [FS.readDir]; simp [hd]

/-- C8 at the missing name `bat1` of the demo store. -/
theorem first_segment_error_propagates_witness :
    ∃ pre : String, (pre = "could not open " ∨ pre = "could not get stat ") ∧
      ∀ rest : List String,
        FS.open demo.env 0 ("bat1" :: rest) =
          some (.error (pre ++ "bat1" ++ ": " ++ "open bat1: file does not exist")) ∧
        FS.readDir demo.env 0 ("bat1" :: rest) =
          some (.error (pre ++ "bat1" ++ ": " ++ "open bat1: file does not exist")) :=
  first_segment_error_propagates demo.env 0 "bat1" "open bat1: file does not exist"
    (Or.inl rfl)

/-- The result of `readDir` is the listing of the target that `resolve` locates. -/
theorem readDir_eq_resolve (E : Env FSys) (n : Nat) :
    ∀ (V : FSys) (paths : List String), paths.length = n →
      FS.readDir E V paths =
        (resolve E V paths).map (fun r => r.bind (fun t => readDirWrapper E t.1 t.2)) := by
  induction n with
  | zero =>
    intro V paths h
    have : paths = [] := List.length_eq_zero.mp h
    subst this
    rw [FS.readDir, resolve]; rfl
  | succ n ih =>
    intro V paths h
    match paths, h with
    | [p0], _ =>
      rw [FS.readDir, resolve]
      rcases hd : getIsDir E V p0 with ⟨b, _ | e⟩
      · cases b
        · rcases hk : getKind E V p0 with ⟨k, _ | e⟩
          · by_cases hz : k = matchers.TypeZip
            · cases hr : zipNewReader E V p0 <;> simp [hz, hr, Except.bind]
            · simp [hz, Except.bind]
          · simp [Except.bind]
        · simp [Except.bind]
      · simp [Except.bind]
    | p0 :: p1 :: rest, h =>
      have hl : ∀ q : String, (q :: rest).length = n := by
        intro q; simpa using h
      rw [FS.readDir, resolve]
      rcases hd : getIsDir E V p0 with ⟨b, _ | e⟩
      · cases b
        · rcases hk : getKind E V p0 with ⟨k, _ | e⟩
          · by_cases hz : k = matchers.TypeZip
            · cases hr : zipNewReader E V p0 with
              | error e => simp [hz, Except.bind]
              | ok zr => simpa [hz] using ih zr (p1 :: rest) (hl p1)
            · simp [hz, Except.bind]
          · simp [Except.bind]
        · simpa using ih V ((p0 ++ "/" ++ p1) :: rest) (hl _)
      · simp [Except.bind]

/-- The result of `open` is the handle of the target that `resolve` locates. -/
theorem open_eq_resolve (E : Env FSys) (n : Nat) :
    ∀ (V : FSys) (paths : List String), paths.length = n →
      FS.open E V paths =
        (resolve E V paths).map (fun r => r.bind (fun t => E.Open t.1 t.2)) := by
  induction n with
  | zero =>
    intro V paths h
    have : paths = [] := List.length_eq_zero.mp h
    subst this
    rw [FS.open, resolve]; rfl
  | succ n ih =>
    intro V paths h
    match paths, h with
    | [p0], _ =>
      rw [FS.open, resolve]
      rcases hd : getIsDir E V p0 with ⟨b, _ | e⟩
      · cases b
        · rcases hk : getKind E V p0 with ⟨k, _ | e⟩
          · by_cases hz : k = matchers.TypeZip
            · cases hr : zipNewReader E V p0 <;> simp [hz, hr, Except.bind]
            · simp [hz, Except.bind]
          · simp [Except.bind]
        · simp [Except.bind]
      · simp [Except.bind]
    | p0 :: p1 :: rest, h =>
      have hl : ∀ q : String, (q :: rest).length = n := by
        intro q; simpa using h
      rw [FS.open, resolve]
      rcases hd : getIsDir E V p0 with ⟨b, _ | e⟩
      · cases b
        · rcases hk : getKind E V p0 with ⟨k, _ | e⟩
          · by_cases hz : k = matchers.TypeZip
            · cases hr : zipNewReader E V p0 with
              | error e => simp [hz, Except.bind]
              | ok zr => simpa [hz] using ih zr (p1 :: rest) (hl p1)
            · simp [hz, Except.bind]
          · simp [Except.bind]
        · simpa using ih V ((p0 ++ "/" ++ p1) :: rest) (hl _)
      · simp [Except.bind]

/-! ## Listings -/

/-- An entry whose classification fails is left as it is by the loop body. -/
theorem wrapEntry_of_open_error (E : Env FSys) (V : FSys) (d : String) (e : DirEntry)
    (err : String) (hfail : E.Open V (d ++ "/" ++ e.Name) = .error err) :
    wrapEntry E V d e = e := by
  unfold wrapEntry
  by_cases hd : e.IsDir = true
  · simp [hd]
  · have hk : (getKind E V (d ++ "/" ++ e.Name)).1 = types.Unknown := by
      simp [getKind, hfail]
    have hne : types.Unknown ≠ matchers.TypeZip := by decide
    simp [hd, hk, hne]

/-- C9. When the backing listing of a directory succeeds and one of its
non-directory entries cannot be opened for classification, `readDirWrapper` still
returns a listing, of the same length, without error, and that entry is in it at
the same position, unwrapped. -/
theorem readDirWrapper_tolerates_classification_failure (E : Env FSys) (V : FSys)
    (d : String) (entries : List DirEntry) (i : Nat) (e : DirEntry) (err : String)
    (hl : E.ReadDir V d = .ok entries)
    (hi : entries[i]? = some e)
    (_hnd : e.IsDir = false)
    (hfail : E.Open V (d ++ "/" ++ e.Name) = .error err) :
    ∃ out, readDirWrapper E V d = .ok out ∧ out.length = entries.length ∧
      out[i]? = some e := by
  refine ⟨entries.map (wrapEntry E V d), ?_, by simp, ?_⟩
  · simp [readDirWrapper, hl]
  · simp [List.getElem?_map, hi, wrapEntry_of_open_error E V d e err hfail]

/-- C9 at the entry `root.zip` of the root listing of the demo store, whose probe
name `./root.zip` the store refuses to open. -/
theorem readDirWrapper_tolerates_classification_failure_witness :
    ∃ out, readDirWrapper demo.env 0 "." = .ok out ∧
      out.length =
        [demo.dirEntry "cat1", demo.regEntry "note.txt" 2, demo.regEntry "root.zip" 8].length ∧
      out[2]? = some (demo.regEntry "root.zip" 8) :=
  readDirWrapper_tolerates_classification_failure demo.env 0 "."
    [demo.dirEntry "cat1", demo.regEntry "note.txt" 2, demo.regEntry "root.zip" 8] 2
    (demo.regEntry "root.zip" 8) "open ./root.zip: invalid argument" rfl rfl rfl rfl

/-- C10. A `VirtualDir` reports `IsDir() = true` whatever entry it wraps, and its
`Name`, `Type` and `Info` are those of the wrapped entry. -/
theorem VirtualDir_overrides_only_IsDir (e : DirEntry) :
    (DirEntry.VirtualDir e).IsDir = true ∧
      (DirEntry.VirtualDir e).Name = e.Name ∧
      (DirEntry.VirtualDir e).Type_ = e.Type_ ∧
      (DirEntry.VirtualDir e).Info = e.Info :=
  ⟨rfl, rfl, rfl, rfl⟩

/-- C4 at the root of the demo store: `root.zip` is a non-directory file whose
content classifies as a zip archive, yet `ReadDir(".")` lists it with
`IsDir() = false`, because the probe name `./root.zip` is refused by the store;
the archive `inner.zip` of the directory `cat1` is listed as a `VirtualDir`. -/
theorem readDir_root_lists_archive_as_file :
    getIsDir demo.env 0 "root.zip" = (false, none) ∧
      getKind demo.env 0 "root.zip" = (matchers.TypeZip, none) ∧
      getKind demo.env 0 ("." ++ "/" ++ "root.zip") =
        (types.Unknown, some "could not open ./root.zip: open ./root.zip: invalid argument") ∧
      FS.ReadDir demo.env 0 2 "." = some (some (.ok
        [demo.dirEntry "cat1", demo.regEntry "note.txt" 2, demo.regEntry "root.zip" 8])) ∧
      (demo.regEntry "root.zip" 8).IsDir = false ∧
      FS.ReadDir demo.env 0 2 "cat1" = some (some (.ok
        [demo.dirEntry "cat2", DirEntry.VirtualDir (demo.regEntry "inner.zip" 8)])) := by
  have h1 : getIsDir demo.env 0 "." = (true, none) := rfl
  have h2 : getIsDir demo.env 0 "cat1" = (true, none) := rfl
  have s1 : sepFilePath 2 (filepath.Clean ".") = some ["."] := by decide
  have s2 : sepFilePath 2 (filepath.Clean "cat1") = some ["cat1"] := by decide
  refine ⟨rfl, rfl, rfl, ?_, rfl, ?_⟩
  · rw [FS.ReadDir, s1, Option.map_some', FS.readDir]
    simp only [h1]
    rfl
  · rw [FS.ReadDir, s2, Option.map_some', FS.readDir]
    simp only [h2]
    rfl

/-! ## Segmentation -/

theorem cleanLoop_copy (r : Bool) (x : List Char) (hx : '/' ∉ x) :
    ∀ (tail out : List Char) (d : Nat),
      filepath.cleanLoop r true (x ++ tail) out d = filepath.cleanLoop r true tail (out ++ x) d := by
  induction x with
  | nil => intro tail out d; simp
  | cons a x ih =>
    intro tail out d
    have ha : a ≠ '/' := fun h => hx (by simp [h])
    have hx2 : '/' ∉ x := fun h => hx (by simp [h])
    rw [List.cons_append, filepath.cleanLoop]
    simp only [ha, if_false]
    rw [ih hx2]
    simp

theorem cleanLoop_true_nil (r : Bool) (out : List Char) (d : Nat) :
    filepath.cleanLoop r true [] out d = out := by
  simp [filepath.cleanLoop]

theorem cleanLoop_false_nil (r : Bool) (out : List Char) (d : Nat) :
    filepath.cleanLoop r false [] out d = out := by
  simp [filepath.cleanLoop]

theorem cleanLoop_true_slash (r : Bool) (rest out : List Char) (d : Nat) :
    filepath.cleanLoop r true ('/' :: rest) out d = filepath.cleanLoop r false rest out d := by
  rw [filepath.cleanLoop]; simp

theorem cleanLoop_false_slash (r : Bool) (rest out : List Char) (d : Nat) :
    filepath.cleanLoop r false ('/' :: rest) out d = filepath.cleanLoop r false rest out d := by
  rw [filepath.cleanLoop.eq_def]; simp

theorem joinSlash_cons_cons (c c2 : List Char) (cs : List (List Char)) :
    joinSlash (c :: c2 :: cs) = c ++ '/' :: joinSlash (c2 :: cs) := rfl

theorem joinSlash_snoc (P : List (List Char)) (x : List Char) (hP : P ≠ []) :
    joinSlash (P ++ [x]) = joinSlash P ++ '/' :: x := by
  induction P with
  | nil => exact absurd rfl hP
  | cons c P ih =>
    cases P with
    | nil => simp [joinSlash]
    | cons c2 P =>
      have := ih (by simp)
      simp only [List.cons_append] at this ⊢
      rw [joinSlash_cons_cons, this, joinSlash_cons_cons]
      simp

theorem joinSlash_eq_nil (P : List (List Char)) (hne : ∀ c ∈ P, c ≠ []) :
    joinSlash P = [] ↔ P = [] := by
  cases P with
  | nil => simp [joinSlash]
  | cons c P =>
    have hc : c ≠ [] := hne c (by simp)
    cases P with
    | nil => simp [joinSlash, hc]
    | cons c2 P => simp [joinSlash, hc]

theorem joinSlash_snoc_withSep (P : List (List Char)) (x : List Char)
    (hne : ∀ c ∈ P, c ≠ []) :
    joinSlash (P ++ [x]) = withSep (joinSlash P) ++ x := by
  by_cases hP : P = []
  · subst hP; simp [joinSlash, withSep]
  · have : joinSlash P ≠ [] := fun h => hP ((joinSlash_eq_nil P hne).mp h)
    have hl : 0 < (joinSlash P).length := List.length_pos.mpr this
    rw [joinSlash_snoc P x hP, withSep, if_pos hl]
    simp

theorem cleanLoop_dot (r : Bool) (t out : List Char) (d : Nat)
    (ht : t = [] ∨ t.head? = some '/') :
    filepath.cleanLoop r false ('.' :: t) out d = filepath.cleanLoop r false t out d := by
  rw [filepath.cleanLoop.eq_def]
  simp [ht]

theorem cleanLoop_dotdot (r : Bool) (t out : List Char) (d : Nat)
    (ht : t = [] ∨ t.head? = some '/') :
    filepath.cleanLoop r false ('.' :: '.' :: t) out d =
      if d < out.length then
        filepath.cleanLoop r false t
          (out.take (filepath.backtrack out d (out.length - 1))) d
      else if !r then
        filepath.cleanLoop r false t (withSep out ++ ['.', '.']) (withSep out ++ ['.', '.']).length
      else filepath.cleanLoop r false t out d := by
  rw [filepath.cleanLoop.eq_def]
  simp only [withSep]
  simp [ht]

theorem cleanLoop_elem (r : Bool) (a : Char) (t out : List Char) (d : Nat)
    (ha : a ≠ '/')
    (h1 : ¬(a = '.' ∧ (t = [] ∨ t.head? = some '/')))
    (h2 : ∀ t2, t = '.' :: t2 → ¬(a = '.' ∧ (t2 = [] ∨ t2.head? = some '/'))) :
    filepath.cleanLoop r false (a :: t) out d =
      filepath.cleanLoop r true t (elemSep r out ++ [a]) d := by
  rw [filepath.cleanLoop.eq_def]
  simp only [ha, if_false, h1]
  cases t with
  | nil => simp [elemSep]
  | cons c1 t2 =>
    simp only
    by_cases hc : c1 = '.'
    · subst hc
      have := h2 t2 rfl
      simp only [true_and] at this ⊢
      rw [if_neg this]
      simp [elemSep]
    · have : ¬(a = '.' ∧ c1 = '.' ∧ (t2 = [] ∨ t2.head? = some '/')) := by
        intro h; exact hc h.2.1
      rw [if_neg this]
      simp [elemSep]

theorem backtrack_no_slash (x : List Char) (hx : '/' ∉ x) :
    ∀ w, w < x.length → filepath.backtrack x 0 w = 0 := by
  intro w
  induction w with
  | zero => intro _; rfl
  | succ w ih =>
    intro hw
    have hget : x.getD (w + 1) '/' ≠ '/' := by
      rw [List.getD_eq_getElem x '/' hw]
      intro h
      exact hx (h ▸ List.getElem_mem hw)
    rw [filepath.backtrack, if_pos ⟨Nat.succ_pos w, hget⟩]
    exact ih (Nat.lt_of_succ_lt hw)

theorem backtrack_slash (A x : List Char) (d : Nat) (hx : '/' ∉ x) (hd : d ≤ A.length) :
    ∀ k, k ≤ x.length → filepath.backtrack (A ++ '/' :: x) d (A.length + k) = A.length := by
  intro k
  induction k with
  | zero =>
    intro _
    cases hA : A.length with
    | zero => rfl
    | succ m =>
      have hget : (A ++ '/' :: x).getD (m + 1) '/' = '/' := by
        rw [← hA, List.getD_eq_getElem?_getD, List.getElem?_append_right (Nat.le_refl _)]
        simp
      rw [Nat.add_zero, filepath.backtrack, if_neg (fun h => h.2 hget)]
  | succ k ih =>
    intro hk
    have hk2 : k < x.length := hk
    have hget : (A ++ '/' :: x).getD (A.length + k + 1) '/' ≠ '/' := by
      have hlt : A.length + k + 1 < (A ++ '/' :: x).length := by simp; omega
      rw [List.getD_eq_getElem _ '/' hlt]
      have : (A ++ '/' :: x)[A.length + k + 1] = x[k] := by
        rw [List.getElem_append_right (by omega)]
        simp [show A.length + k + 1 - A.length = k + 1 by omega]
      rw [this]
      intro h
      exact hx (h ▸ List.getElem_mem hk2)
    rw [← Nat.add_assoc, filepath.backtrack, if_pos ⟨by omega, hget⟩]
    exact ih (Nat.le_of_lt hk2)

theorem take_backtrack_joinSlash (P : List (List Char)) (x : List Char) (d : Nat)
    (hx0 : x ≠ []) (hx : '/' ∉ x) (hd : d ≤ (joinSlash P).length) (hP : P = [] → d = 0) :
    (joinSlash (P ++ [x])).take
        (filepath.backtrack (joinSlash (P ++ [x])) d ((joinSlash (P ++ [x])).length - 1)) =
      joinSlash P := by
  have hxl : 0 < x.length := List.length_pos.mpr hx0
  by_cases h : P = []
  · subst h
    have hd0 := hP rfl
    subst hd0
    simp only [List.nil_append, joinSlash]
    rw [backtrack_no_slash x hx _ (by omega)]
    simp
  · rw [joinSlash_snoc P x h]
    have hlen : (joinSlash P ++ '/' :: x).length - 1 = (joinSlash P).length + x.length := by
      simp
    rw [hlen, backtrack_slash (joinSlash P) x d hx hd x.length (Nat.le_refl _)]
    simp

theorem joinSlash_length_le (P Q : List (List Char)) :
    (joinSlash P).length ≤ (joinSlash (P ++ Q)).length := by
  induction Q using List.reverseRecOn with
  | nil => simp
  | append_singleton Q x ih =>
    rw [← List.append_assoc]
    by_cases h : P ++ Q = []
    · have hP : P = [] := (List.append_eq_nil.mp h).1
      subst hP
      simp [joinSlash]
    · rw [joinSlash_snoc _ x h]
      simp only [List.length_append]
      omega

theorem joinSlash_length_lt (P Q : List (List Char)) (x : List Char) (hx : x ≠ []) :
    (joinSlash P).length < (joinSlash (P ++ (Q ++ [x]))).length := by
  have hxl : 0 < x.length := List.length_pos.mpr hx
  rw [← List.append_assoc]
  by_cases h : P ++ Q = []
  · have hP : P = [] := (List.append_eq_nil.mp h).1
    have hQ : Q = [] := (List.append_eq_nil.mp h).2
    subst hP hQ
    simpa [joinSlash] using hxl
  · rw [joinSlash_snoc _ x h]
    have := joinSlash_length_le P Q
    simp only [List.length_append, List.length_cons]
    omega

theorem eq_nil_or_snoc {α : Type} (l : List α) : l = [] ∨ ∃ l1 x, l = l1 ++ [x] := by
  induction l using List.reverseRecOn with
  | nil => exact Or.inl rfl
  | append_singleton l x _ => exact Or.inr ⟨l, x, rfl⟩

theorem takeWhile_ne_slash_eq_nil (t : List Char)
    (h : t.takeWhile (· ≠ '/') = []) : t = [] ∨ t.head? = some '/' := by
  cases t with
  | nil => exact Or.inl rfl
  | cons c t =>
    right
    by_cases hc : c = '/'
    · simp [hc]
    · simp [List.takeWhile_cons, hc] at h

theorem not_slash_of_mem_takeWhile (t : List Char) :
    '/' ∉ t.takeWhile (· ≠ '/') := by
  intro h
  have := List.mem_takeWhile_imp h
  simp at this

theorem normal_comps_ne_nil (k : Nat) (names : List (List Char))
    (hn : ∀ c ∈ names, IsName c) : ∀ c ∈ dotdots k ++ names, c ≠ [] := by
  intro c hc
  rcases List.mem_append.mp hc with h | h
  · have := List.eq_of_mem_replicate h
    simp [this]
  · exact (hn c h).1

theorem joinSlash_dotdots_succ (k : Nat) :
    joinSlash (dotdots (k + 1)) = withSep (joinSlash (dotdots k)) ++ ['.', '.'] := by
  have : dotdots (k + 1) = dotdots k ++ [['.', '.']] := by
    simp [dotdots, List.replicate_succ']
  rw [this, joinSlash_snoc_withSep]
  intro c hc
  have := List.eq_of_mem_replicate hc
  simp [this]

theorem elemSep_false (out : List Char) : elemSep false out = withSep out := by
  simp only [elemSep, withSep]
  by_cases h : out.length = 0
  · simp [h]
  · have : 0 < out.length := Nat.pos_of_ne_zero h
    simp [h, this]

theorem cleanLoop_normal (n : Nat) :
    ∀ rest : List Char, rest.length ≤ n →
    ∀ (out : List Char) (k : Nat) (names : List (List Char)),
      (∀ c ∈ names, IsName c) →
      (out = joinSlash (dotdots k ++ names) →
        ∃ k2 names2, (∀ c ∈ names2, IsName c) ∧
          filepath.cleanLoop false false rest out (joinSlash (dotdots k)).length =
            joinSlash (dotdots k2 ++ names2)) ∧
      (∀ x, x ≠ [] → '/' ∉ x → IsName (x ++ rest.takeWhile (· ≠ '/')) →
        out = joinSlash (dotdots k ++ names ++ [x]) →
        ∃ k2 names2, (∀ c ∈ names2, IsName c) ∧
          filepath.cleanLoop false true rest out (joinSlash (dotdots k)).length =
            joinSlash (dotdots k2 ++ names2)) := by
  induction n using Nat.strong_induction_on with
  | _ n ih =>
    intro rest hlen out k names hn
    constructor
    · intro hout
      cases rest with
      | nil => exact ⟨k, names, hn, by rw [cleanLoop_false_nil, hout]⟩
      | cons a t =>
        have htl : t.length < n := by simpa using hlen
        by_cases ha : a = '/'
        · subst ha
          rw [cleanLoop_false_slash]
          exact (ih t.length htl t (Nat.le_refl _) out k names hn).1 hout
        by_cases hdot : a = '.' ∧ (t = [] ∨ t.head? = some '/')
        · rw [hdot.1, cleanLoop_dot false t out _ hdot.2]
          exact (ih t.length htl t (Nat.le_refl _) out k names hn).1 hout
        by_cases hdd : ∃ t2, t = '.' :: t2 ∧ a = '.' ∧ (t2 = [] ∨ t2.head? = some '/')
        · obtain ⟨t2, ht, ha2, ht2⟩ := hdd
          subst ht ha2
          have htl2 : t2.length < n := by simp at htl; omega
          rw [cleanLoop_dotdot false t2 out _ ht2]
          by_cases hlt : (joinSlash (dotdots k)).length < out.length
          · rw [if_pos hlt]
            -- there is a last name to remove
            rcases eq_nil_or_snoc names with hnil | ⟨names1, x, hx⟩
            · subst hnil; simp [hout] at hlt
            · subst hx
              have hxn : IsName x := hn x (by simp)
              have hn1 : ∀ c ∈ names1, IsName c := fun c hc => hn c (by simp [hc])
              have houtx : out = joinSlash ((dotdots k ++ names1) ++ [x]) := by
                rw [hout]; simp
              have htake := take_backtrack_joinSlash (dotdots k ++ names1) x
                (joinSlash (dotdots k)).length hxn.1 hxn.2.1
                (joinSlash_length_le _ _)
                (by
                  intro h
                  have hk : dotdots k = [] := (List.append_eq_nil.mp h).1
                  rw [hk]; rfl)
              rw [houtx, htake]
              exact (ih t2.length htl2 t2 (Nat.le_refl _) _ k names1 hn1).1 rfl
          · rw [if_neg hlt]
            simp only [Bool.not_false, if_true]
            have hnil : names = [] := by
              rcases eq_nil_or_snoc names with hnil | ⟨names1, x, hx⟩
              · exact hnil
              · subst hx
                exfalso
                apply hlt
                rw [hout]
                exact joinSlash_length_lt _ names1 x (hn x (by simp)).1
            subst hnil
            have hout2 : out = joinSlash (dotdots k) := by simpa using hout
            have hnew : withSep out ++ ['.', '.'] = joinSlash (dotdots (k + 1)) := by
              rw [joinSlash_dotdots_succ, hout2]
            rw [hnew]
            exact (ih t2.length htl2 t2 (Nat.le_refl _) _ (k + 1) [] (by simp)).1 (by simp)
        · -- a real path element starts
          have h2 : ∀ t2, t = '.' :: t2 → ¬(a = '.' ∧ (t2 = [] ∨ t2.head? = some '/')) := by
            intro t2 ht h
            exact hdd ⟨t2, ht, h.1, h.2⟩
          rw [cleanLoop_elem false a t out _ ha hdot h2, elemSep_false]
          have hname : IsName ([a] ++ t.takeWhile (· ≠ '/')) := by
            refine ⟨by simp, ?_, ?_, ?_⟩
            · intro h
              rcases List.mem_append.mp h with h | h
              · simp at h; exact ha h.symm
              · exact not_slash_of_mem_takeWhile t h
            · intro h
              simp only [List.singleton_append, List.cons.injEq] at h
              exact hdot ⟨h.1, takeWhile_ne_slash_eq_nil t h.2⟩
            · intro h
              simp only [List.singleton_append, List.cons.injEq] at h
              obtain ⟨ha1, htw⟩ := h
              cases t with
              | nil => simp at htw
              | cons c t2 =>
                by_cases hc : c = '/'
                · simp [List.takeWhile_cons, hc] at htw
                · simp only [List.takeWhile_cons, hc, ne_eq, not_false_eq_true, decide_True,
                    if_true, List.cons.injEq] at htw
                  exact h2 t2 (by rw [htw.1]) ⟨ha1, takeWhile_ne_slash_eq_nil t2 htw.2⟩
          have hout3 : withSep out ++ [a] = joinSlash (dotdots k ++ names ++ [[a]]) := by
            rw [joinSlash_snoc_withSep _ _ (normal_comps_ne_nil k names hn), hout]
          exact (ih t.length htl t (Nat.le_refl _) _ k names hn).2 [a] (by simp)
            (by simpa using fun h => ha h.symm) hname hout3
    · intro x hx0 hxs hname hout
      cases rest with
      | nil =>
        refine ⟨k, names ++ [x], ?_, ?_⟩
        · intro c hc
          rcases List.mem_append.mp hc with h | h
          · exact hn c h
          · simp at h; subst h; simpa using hname
        · rw [cleanLoop_true_nil, hout]; simp
      | cons a t =>
        have htl : t.length < n := by simpa using hlen
        by_cases ha : a = '/'
        · subst ha
          rw [cleanLoop_true_slash]
          have hxn : IsName x := by simpa using hname
          have hn2 : ∀ c ∈ names ++ [x], IsName c := by
            intro c hc
            rcases List.mem_append.mp hc with h | h
            · exact hn c h
            · simp at h; subst h; exact hxn
          exact (ih t.length htl t (Nat.le_refl _) out k (names ++ [x]) hn2).1
            (by rw [hout]; simp)
        · have hstep : filepath.cleanLoop false true (a :: t) out
              (joinSlash (dotdots k)).length =
              filepath.cleanLoop false true t (out ++ [a]) (joinSlash (dotdots k)).length := by
            rw [filepath.cleanLoop]; simp [ha]
          rw [hstep]
          have hout2 : out ++ [a] = joinSlash (dotdots k ++ names ++ [x ++ [a]]) := by
            rw [hout]
            by_cases hP : dotdots k ++ names = []
            · rw [hP]; simp [joinSlash]
            · rw [joinSlash_snoc _ _ hP, joinSlash_snoc _ _ hP]; simp
          have hname2 : IsName ((x ++ [a]) ++ t.takeWhile (· ≠ '/')) := by
            have : (a :: t).takeWhile (· ≠ '/') = a :: t.takeWhile (· ≠ '/') := by
              simp [List.takeWhile_cons, ha]
            rw [this] at hname
            simpa using hname
          exact (ih t.length htl t (Nat.le_refl _) _ k names hn).2 (x ++ [a]) (by simp)
            (by
              intro h
              rcases List.mem_append.mp h with h | h
              · exact hxs h
              · simp at h; exact ha h.symm)
            hname2 hout2

theorem cleanLoop_name_step (c tail out : List Char) (d : Nat) (hc : IsName c)
    (htail : tail = [] ∨ tail.head? = some '/') :
    filepath.cleanLoop false false (c ++ tail) out d =
      filepath.cleanLoop false false (tail.drop 1) (withSep out ++ c) d := by
  obtain ⟨hc0, hcs, hc1, hc2⟩ := hc
  cases c with
  | nil => exact absurd rfl hc0
  | cons a c1 =>
    have ha : a ≠ '/' := fun h => hcs (by simp [h])
    have hcs1 : '/' ∉ c1 := fun h => hcs (by simp [h])
    have hhead : ∀ (l : List Char), l ≠ [] → '/' ∉ l → ∀ r, (l ++ r).head? ≠ some '/' := by
      intro l hl hls r
      cases l with
      | nil => exact absurd rfl hl
      | cons b l => simpa using fun h => hls (by simp [h])
    have h1 : ¬(a = '.' ∧ (c1 ++ tail = [] ∨ (c1 ++ tail).head? = some '/')) := by
      rintro ⟨ha1, h⟩
      have hc1ne : c1 ≠ [] := by
        intro h0; subst h0; subst ha1; exact hc1 rfl
      rcases h with h | h
      · exact hc1ne (List.append_eq_nil.mp h).1
      · exact hhead c1 hc1ne hcs1 tail h
    have h2 : ∀ t2, c1 ++ tail = '.' :: t2 →
        ¬(a = '.' ∧ (t2 = [] ∨ t2.head? = some '/')) := by
      rintro t2 ht ⟨ha1, h⟩
      cases c1 with
      | nil =>
        simp only [List.nil_append] at ht
        rcases htail with h0 | h0
        · rw [h0] at ht; cases ht
        · rw [ht] at h0; simp at h0
      | cons b c2 =>
        simp only [List.cons_append, List.cons.injEq] at ht
        obtain ⟨hb, ht⟩ := ht
        have hc2ne : c2 ≠ [] := by
          intro h0; subst h0; subst ha1; subst hb; exact hc2 rfl
        have hcs2 : '/' ∉ c2 := fun h => hcs1 (by simp [h])
        rcases h with h | h
        · rw [← ht] at h; exact hc2ne (List.append_eq_nil.mp h).1
        · rw [← ht] at h; exact hhead c2 hc2ne hcs2 tail h
    rw [List.cons_append, cleanLoop_elem false a (c1 ++ tail) out d ha h1 h2, elemSep_false,
      cleanLoop_copy false c1 hcs1]
    have hout : withSep out ++ [a] ++ c1 = withSep out ++ a :: c1 := by simp
    rw [hout]
    cases tail with
    | nil => simp [cleanLoop_true_nil, cleanLoop_false_nil]
    | cons b tl =>
      have hb : b = '/' := by simpa using htail
      subst hb
      rw [cleanLoop_true_slash]
      simp

theorem cleanLoop_dotdot_step (tail out : List Char) (d : Nat)
    (hd : ¬ d < out.length) (htail : tail = [] ∨ tail.head? = some '/') :
    filepath.cleanLoop false false (['.', '.'] ++ tail) out d =
      filepath.cleanLoop false false (tail.drop 1) (withSep out ++ ['.', '.'])
        (withSep out ++ ['.', '.']).length := by
  have : ['.', '.'] ++ tail = '.' :: '.' :: tail := rfl
  rw [this, cleanLoop_dotdot false tail out d htail, if_neg hd]
  simp only [Bool.not_false, if_true]
  cases tail with
  | nil => simp
  | cons b tl =>
    have hb : b = '/' := by simpa using htail
    subst hb
    rw [cleanLoop_false_slash]
    simp

theorem joinSlash_cons_append (c : List Char) (cs : List (List Char)) (t : List Char)
    (ht : t = [] ∨ t = ['/']) :
    ∃ tail, joinSlash (c :: cs) ++ t = c ++ tail ∧ (tail = [] ∨ tail.head? = some '/') ∧
      ∃ t2, (t2 = [] ∨ t2 = ['/']) ∧ tail.drop 1 = joinSlash cs ++ t2 := by
  cases cs with
  | nil =>
    refine ⟨t, by simp [joinSlash], ?_, [], Or.inl rfl, ?_⟩
    · rcases ht with h | h <;> simp [h]
    · rcases ht with h | h <;> simp [h, joinSlash]
  | cons c2 cs =>
    refine ⟨'/' :: joinSlash (c2 :: cs) ++ t, by simp [joinSlash], by simp, t, ht, by simp⟩

theorem foldl_withSep_joinSlash (names : List (List Char)) :
    ∀ P : List (List Char), (∀ c ∈ P ++ names, c ≠ []) →
      names.foldl (fun o c => withSep o ++ c) (joinSlash P) = joinSlash (P ++ names) := by
  induction names with
  | nil => intro P _; simp
  | cons c names ih =>
    intro P h
    have hP : ∀ c ∈ P, c ≠ [] := fun x hx => h x (by simp [hx])
    rw [List.foldl_cons, ← joinSlash_snoc_withSep P c hP, ih (P ++ [c]) (by simpa using h)]
    simp

theorem cleanLoop_names (names : List (List Char)) (hn : ∀ c ∈ names, IsName c) :
    ∀ (out t : List Char) (d : Nat), (t = [] ∨ t = ['/']) →
      filepath.cleanLoop false false (joinSlash names ++ t) out d =
        names.foldl (fun o c => withSep o ++ c) out := by
  induction names with
  | nil =>
    intro out t d ht
    rcases ht with h | h
    · simp [h, joinSlash, cleanLoop_false_nil]
    · simp [h, joinSlash, cleanLoop_false_slash, cleanLoop_false_nil]
  | cons c cs ih =>
    intro out t d ht
    obtain ⟨tail, h1, h2, t2, ht2, h3⟩ := joinSlash_cons_append c cs t ht
    rw [h1, cleanLoop_name_step c tail out d (hn c (by simp)) h2, h3,
      ih (fun x hx => hn x (by simp [hx])) _ t2 d ht2]
    simp

theorem cleanLoop_dotdots (names : List (List Char)) (hn : ∀ c ∈ names, IsName c)
    (t : List Char) (ht : t = [] ∨ t = ['/']) :
    ∀ (j k : Nat),
      filepath.cleanLoop false false (joinSlash (dotdots j ++ names) ++ t)
          (joinSlash (dotdots k)) (joinSlash (dotdots k)).length =
        joinSlash (dotdots (k + j) ++ names) := by
  intro j
  induction j generalizing t with
  | zero =>
    intro k
    simp only [dotdots, List.replicate_zero, List.nil_append, Nat.add_zero]
    rw [cleanLoop_names names hn _ t _ ht]
    exact foldl_withSep_joinSlash names _ (normal_comps_ne_nil k names hn)
  | succ j ih =>
    intro k
    have hsplit : dotdots (j + 1) ++ names = ['.', '.'] :: (dotdots j ++ names) := by
      simp [dotdots, List.replicate_succ]
    obtain ⟨tail, h1, h2, t2, ht2, h3⟩ :=
      joinSlash_cons_append ['.', '.'] (dotdots j ++ names) t ht
    rw [hsplit, h1, cleanLoop_dotdot_step tail _ _ (Nat.lt_irrefl _) h2, h3,
      ← joinSlash_dotdots_succ, ih t2 ht2 (k + 1),
      show k + 1 + j = k + (j + 1) by omega]

theorem normalComps_elem {comps : List (List Char)} (h : NormalComps comps) :
    ∀ c ∈ comps, c ≠ [] ∧ '/' ∉ c ∧ c ≠ ['.'] := by
  obtain ⟨k, names, rfl, hn⟩ := h
  intro c hc
  rcases List.mem_append.mp hc with h | h
  · have := List.eq_of_mem_replicate h
    subst this
    exact ⟨by simp, by decide, by decide⟩
  · exact ⟨(hn c h).1, (hn c h).2.1, (hn c h).2.2.1⟩

theorem normalComps_init {init : List (List Char)} {c : List Char}
    (h : NormalComps (init ++ [c])) : NormalComps init := by
  obtain ⟨k, names, heq, hn⟩ := h
  rcases eq_nil_or_snoc names with hnil | ⟨n1, x, hx⟩
  · subst hnil
    cases k with
    | zero => simp [dotdots] at heq
    | succ k =>
      have : dotdots (k + 1) = dotdots k ++ [['.', '.']] := by
        simp [dotdots, List.replicate_succ']
      rw [List.append_nil, this] at heq
      have := List.append_inj_left' heq rfl
      exact ⟨k, [], by simpa using this, by simp⟩
  · subst hx
    rw [← List.append_assoc] at heq
    have := List.append_inj_left' heq rfl
    exact ⟨k, n1, this, fun c hc => hn c (by simp [hc])⟩

theorem joinSlash_head (c : List Char) (cs : List (List Char)) (hc : c ≠ []) :
    (joinSlash (c :: cs)).head? = c.head? := by
  cases c with
  | nil => exact absurd rfl hc
  | cons a c => cases cs <;> simp [joinSlash]

theorem normalComps_head_ne_slash {comps : List (List Char)} (h : NormalComps comps) :
    (joinSlash comps).head? ≠ some '/' := by
  cases comps with
  | nil => simp [joinSlash]
  | cons c cs =>
    obtain ⟨hc0, hcs, _⟩ := normalComps_elem h c (by simp)
    rw [joinSlash_head c cs hc0]
    cases c with
    | nil => exact absurd rfl hc0
    | cons a c => simpa using fun h => hcs (by simp [h])

theorem normalComps_joinSlash_ne_nil {comps : List (List Char)} (h : NormalComps comps)
    (hne : comps ≠ []) : joinSlash comps ≠ [] := by
  intro h0
  exact hne ((joinSlash_eq_nil comps (fun c hc => (normalComps_elem h c hc).1)).mp h0)

/-- `Clean` returns a relative path in normal form: `.`, or `..` elements followed
by names, joined by separators. -/
theorem cleanChars_normal (path : List Char) (hrel : path.head? ≠ some '/') :
    filepath.cleanChars path = ['.'] ∨
      ∃ comps, NormalComps comps ∧ comps ≠ [] ∧ filepath.cleanChars path = joinSlash comps := by
  unfold filepath.cleanChars
  by_cases hp : path = []
  · simp [hp]
  · simp only [hp, if_false]
    have hr : (decide (path.head? = some '/')) = false := by simpa using hrel
    simp only [hr]
    obtain ⟨k, names, hn, hout⟩ :=
      (cleanLoop_normal path.length path (Nat.le_refl _) [] 0 [] (by simp)).1
        (by simp [dotdots, joinSlash])
    have hd : (joinSlash (dotdots 0)).length = 0 := by simp [dotdots, joinSlash]
    rw [hd] at hout
    simp only [Bool.false_eq_true, if_false, hout]
    by_cases hl : (joinSlash (dotdots k ++ names)).length = 0
    · left; simp [hl]
    · right
      refine ⟨dotdots k ++ names, ⟨k, names, rfl, hn⟩, ?_, by simp [hl]⟩
      intro h0
      rw [h0] at hl
      exact hl rfl

/-- `Clean` leaves a relative path in normal form as it is, and drops one trailing
separator after it. -/
theorem cleanChars_joinSlash (comps : List (List Char)) (h : NormalComps comps)
    (hne : comps ≠ []) (t : List Char) (ht : t = [] ∨ t = ['/']) :
    filepath.cleanChars (joinSlash comps ++ t) = joinSlash comps := by
  have hj := normalComps_joinSlash_ne_nil h hne
  have hhead : (joinSlash comps ++ t).head? ≠ some '/' := by
    rw [List.head?_append_of_ne_nil _ hj]
    exact normalComps_head_ne_slash h
  obtain ⟨k, names, rfl, hn⟩ := h
  unfold filepath.cleanChars
  have hp : joinSlash (dotdots k ++ names) ++ t ≠ [] := by simp [hj]
  have hr : (decide ((joinSlash (dotdots k ++ names) ++ t).head? = some '/')) = false := by
    simpa using hhead
  simp only [hp, if_false, hr, Bool.false_eq_true]
  have := cleanLoop_dotdots names hn t ht k 0
  simp only [dotdots, List.replicate_zero, joinSlash, List.length_nil, Nat.zero_add] at this
  simp only [dotdots]
  rw [this]
  have hl : (joinSlash (List.replicate k ['.', '.'] ++ names)).length ≠ 0 := by
    intro h0
    exact hj (List.length_eq_zero.mp h0)
  simp [hl]

theorem joinSlash_snoc_split (P : List (List Char)) (c : List Char) :
    ∃ pre, joinSlash (P ++ [c]) = pre ++ c ∧
      ((P = [] ∧ pre = []) ∨ (P ≠ [] ∧ pre = joinSlash P ++ ['/'])) := by
  by_cases hP : P = []
  · exact ⟨[], by simp [hP, joinSlash], Or.inl ⟨hP, rfl⟩⟩
  · exact ⟨joinSlash P ++ ['/'], by rw [joinSlash_snoc P c hP]; simp, Or.inr ⟨hP, rfl⟩⟩

theorem reverse_dropWhile_slash (pre c : List Char) (hc0 : c ≠ []) (hcs : '/' ∉ c) :
    ((pre ++ c).reverse.dropWhile (· = '/')).reverse = pre ++ c := by
  rcases eq_nil_or_snoc c with h | ⟨c1, x, h⟩
  · exact absurd h hc0
  · subst h
    have hx : x ≠ '/' := fun h => hcs (by simp [h])
    simp [List.dropWhile_cons, hx]

theorem reverse_takeWhile_elem (pre c : List Char) (hcs : '/' ∉ c)
    (hpre : pre = [] ∨ ∃ q, pre = q ++ ['/']) :
    ((pre ++ c).reverse.takeWhile (· ≠ '/')).reverse = c := by
  have hall : ∀ a ∈ c.reverse, (fun x : Char => decide (x ≠ '/')) a = true := by
    intro a ha
    have : a ∈ c := List.mem_reverse.mp ha
    have hne : a ≠ '/' := fun h => hcs (h ▸ this)
    simpa using hne
  rcases hpre with h | ⟨q, h⟩
  · subst h
    rw [List.nil_append, List.takeWhile_eq_self_iff.mpr hall, List.reverse_reverse]
  · subst h
    rw [List.reverse_append, List.takeWhile_append_of_pos hall]
    simp [List.takeWhile_cons]

theorem reverse_dropWhile_elem (pre c : List Char) (hcs : '/' ∉ c)
    (hpre : pre = [] ∨ ∃ q, pre = q ++ ['/']) :
    ((pre ++ c).reverse.dropWhile (· ≠ '/')).reverse = pre := by
  have hall : ∀ a ∈ c.reverse, (fun x : Char => decide (x ≠ '/')) a = true := by
    intro a ha
    have : a ∈ c := List.mem_reverse.mp ha
    have hne : a ≠ '/' := fun h => hcs (h ▸ this)
    simpa using hne
  rcases hpre with h | ⟨q, h⟩
  · subst h
    rw [List.nil_append, List.dropWhile_eq_nil_iff.mpr hall, List.reverse_nil]
  · subst h
    rw [List.reverse_append, List.dropWhile_append_of_pos hall]
    simp [List.dropWhile_cons]

theorem Base_joinSlash_snoc (P : List (List Char)) (c : List Char)
    (hc0 : c ≠ []) (hcs : '/' ∉ c) :
    filepath.Base ⟨joinSlash (P ++ [c])⟩ = ⟨c⟩ := by
  obtain ⟨pre, hsplit, hpre⟩ := joinSlash_snoc_split P c
  have hpre2 : pre = [] ∨ ∃ q, pre = q ++ ['/'] := by
    rcases hpre with h | h
    · exact Or.inl h.2
    · exact Or.inr ⟨_, h.2⟩
  have hne : (⟨joinSlash (P ++ [c])⟩ : String) ≠ "" := by
    intro h
    have := congrArg String.data h
    simp only [hsplit] at this
    exact hc0 (List.append_eq_nil.mp this).2
  unfold filepath.Base
  rw [if_neg hne]
  simp only [hsplit]
  rw [reverse_dropWhile_slash pre c hc0 hcs, reverse_takeWhile_elem pre c hcs hpre2]
  simp [hc0]

theorem Dir_joinSlash_snoc (P : List (List Char)) (c : List Char) (hcs : '/' ∉ c)
    (hP : NormalComps P) :
    filepath.Dir ⟨joinSlash (P ++ [c])⟩ = if P = [] then "." else ⟨joinSlash P⟩ := by
  obtain ⟨pre, hsplit, hpre⟩ := joinSlash_snoc_split P c
  have hpre2 : pre = [] ∨ ∃ q, pre = q ++ ['/'] := by
    rcases hpre with h | h
    · exact Or.inl h.2
    · exact Or.inr ⟨_, h.2⟩
  unfold filepath.Dir
  simp only [hsplit]
  rw [reverse_dropWhile_elem pre c hcs hpre2]
  rcases hpre with ⟨h1, h2⟩ | ⟨h1, h2⟩
  · subst h1 h2; rfl
  · rw [if_neg h1, h2, cleanChars_joinSlash P hP h1 ['/'] (Or.inr rfl)]

/-- On the path of normal components, the loop of `sepFilePath` collects the
components from the last to the first, one per iteration, and ends. -/
theorem sepFilePath_loop_normal (comps : List (List Char)) :
    NormalComps comps → ∀ ret : List String,
      sepFilePath.loop (comps.length + 1) (pathOf comps) ret =
        some (ret ++ (comps.map String.mk).reverse) := by
  induction comps using List.reverseRecOn with
  | nil =>
    intro _ ret
    have hb : filepath.Base "." = "." := by decide
    simp [pathOf, sepFilePath.loop, hb]
  | append_singleton P c ih =>
    intro h ret
    obtain ⟨hc0, hcs, hc1⟩ := normalComps_elem h c (by simp)
    have hP := normalComps_init h
    have hpath : pathOf (P ++ [c]) = ⟨joinSlash (P ++ [c])⟩ := by simp [pathOf]
    have hbase : (⟨c⟩ : String) ≠ "." := by
      intro h
      exact hc1 (congrArg String.data h)
    rw [List.length_append, List.length_singleton, sepFilePath.loop, hpath,
      Base_joinSlash_snoc P c hc0 hcs, Dir_joinSlash_snoc P c hcs hP]
    simp only [hbase, if_false]
    have := ih hP (ret ++ [⟨c⟩])
    simp only [pathOf] at this
    rw [this]
    simp

theorem intercalate_go_data (l : List String) :
    ∀ acc : String, (String.intercalate.go acc "/" l).data =
      l.foldl (fun o c => o ++ '/' :: c.data) acc.data := by
  induction l with
  | nil => intro acc; rfl
  | cons a l ih =>
    intro acc
    rw [String.intercalate.go, ih]
    simp [String.data_append]

theorem joinSlash_cons_foldl (cs : List (List Char)) :
    ∀ c : List Char, joinSlash (c :: cs) = cs.foldl (fun o x => o ++ '/' :: x) c := by
  induction cs using List.reverseRecOn with
  | nil => intro c; rfl
  | append_singleton cs x ih =>
    intro c
    rw [← List.cons_append, joinSlash_snoc _ _ (by simp), ih, List.foldl_append]
    rfl

theorem intercalate_mk (comps : List (List Char)) :
    "/".intercalate (comps.map String.mk) = ⟨joinSlash comps⟩ := by
  cases comps with
  | nil => rfl
  | cons c cs =>
    apply String.ext
    simp only [List.map_cons, String.intercalate]
    rw [intercalate_go_data, joinSlash_cons_foldl, List.foldl_map]

theorem sepFilePath_loop_mono (fuel : Nat) :
    ∀ (name : String) (ret r : List String),
      sepFilePath.loop fuel name ret = some r →
      ∀ fuel2, fuel ≤ fuel2 → sepFilePath.loop fuel2 name ret = some r := by
  induction fuel with
  | zero => intro name ret r h; simp [sepFilePath.loop] at h
  | succ fuel ih =>
    intro name ret r h fuel2 hle
    obtain ⟨m, rfl⟩ : ∃ m, fuel2 = m + 1 := ⟨fuel2 - 1, by omega⟩
    rw [sepFilePath.loop] at h ⊢
    by_cases hb : filepath.Base name = "."
    · simpa [hb] using h
    · simp only [hb, if_false] at h ⊢
      exact ih _ _ _ h m (by omega)

theorem sepFilePath_mono (fuel : Nat) (name : String) (segs : List String)
    (h : sepFilePath fuel name = some segs) :
    ∀ fuel2, fuel ≤ fuel2 → sepFilePath fuel2 name = some segs := by
  intro fuel2 hle
  unfold sepFilePath at h ⊢
  cases hl : sepFilePath.loop fuel name [] with
  | none => simp [hl] at h
  | some r =>
    rw [sepFilePath_loop_mono fuel name [] r hl fuel2 hle]
    simpa [hl] using h

/-- On every cleaned path that is not rooted, `sepFilePath` returns, within a
number of iterations that it needs and for every larger one, a non-empty list of
segments whose join by the separator is the path. -/
theorem sepFilePath_cleaned_relative (p : String) (hclean : filepath.Clean p = p)
    (hrel : p.data.head? ≠ some '/') :
    ∃ fuel segs, (∀ fuel2, fuel ≤ fuel2 → sepFilePath fuel2 p = some segs) ∧
      segs ≠ [] ∧ "/".intercalate segs = p := by
  have hdata : filepath.cleanChars p.data = p.data := congrArg String.data hclean
  rcases cleanChars_normal p.data hrel with h | ⟨comps, hN, hne, h⟩
  · have hp : p = "." := String.ext (by rw [← hdata, h])
    subst hp
    exact ⟨1, ["."], sepFilePath_mono 1 "." ["."] (by decide), by simp, by decide⟩
  · have hp : p = pathOf comps := by
      simp only [pathOf, hne, if_false]
      exact String.ext (by rw [← hdata, h])
    have hloop := sepFilePath_loop_normal comps hN []
    have hs : sepFilePath (comps.length + 1) p = some (comps.map String.mk) := by
      unfold sepFilePath
      rw [hp, hloop]
      simp [hne]
    refine ⟨comps.length + 1, comps.map String.mk, sepFilePath_mono _ _ _ hs, by simpa using hne, ?_⟩
    rw [intercalate_mk, hp]
    simp [pathOf, hne]

/-- On the cleaned path `/` every iteration of the loop of `sepFilePath` leaves the
name at `/` with base `/`, so no number of iterations reaches the `break`. -/
theorem sepFilePath_loop_root (fuel : Nat) :
    ∀ ret : List String, sepFilePath.loop fuel "/" ret = none := by
  induction fuel with
  | zero => intro ret; rfl
  | succ fuel ih =>
    intro ret
    have hb : filepath.Base "/" = "/" := by decide
    have hd : filepath.Dir "/" = "/" := by decide
    have hne : ("/" : String) ≠ "." := by decide
    rw [sepFilePath.loop]
    simp only [hb, hd, hne, if_false]
    exact ih _

/-- C5 at the cleaned paths `/` and `/a`: `Clean` leaves them unchanged, and
`sepFilePath` does not return on them within any number of iterations; neither do
`Open` and `ReadDir` on the name `/`. -/
theorem sepFilePath_root_never_returns :
    filepath.Clean "/" = "/" ∧ filepath.Clean "/a" = "/a" ∧
      (∀ fuel, sepFilePath fuel "/" = none) ∧
      (∀ fuel, sepFilePath fuel "/a" = none) ∧
      (∀ fuel, FS.Open demo.env 0 fuel "/" = none) ∧
      (∀ fuel, FS.ReadDir demo.env 0 fuel "/" = none) := by
  have hc : filepath.Clean "/" = "/" := by decide
  have hs : ∀ fuel, sepFilePath fuel "/" = none := by
    intro fuel
    simp [sepFilePath, sepFilePath_loop_root]
  have hsa : ∀ fuel, sepFilePath fuel "/a" = none := by
    intro fuel
    have hb : filepath.Base "/a" = "a" := by decide
    have hd : filepath.Dir "/a" = "/" := by decide
    have hne : ("a" : String) ≠ "." := by decide
    cases fuel with
    | zero => rfl
    | succ fuel =>
      simp only [sepFilePath, sepFilePath.loop, hb, hd, hne, if_false, sepFilePath_loop_root]
  refine ⟨hc, by decide, hs, hsa, ?_, ?_⟩
  · intro fuel; simp [FS.Open, hc, hs]
  · intro fuel; simp [FS.ReadDir, hc, hs]

/-! ## Segmentation of joined components -/

/-- The segments of a path of names: `sepFilePath` returns its components. -/
theorem sepFilePath_pathOf (comps : List (List Char)) (h : NormalComps comps) (hne : comps ≠ []) :
    sepFilePath (comps.length + 1) ⟨joinSlash comps⟩ = some (comps.map String.mk) := by
  have hloop := sepFilePath_loop_normal comps h []
  have hp : pathOf comps = ⟨joinSlash comps⟩ := by simp [pathOf, hne]
  unfold sepFilePath
  rw [← hp, hloop]
  simp [hne]

/-- C11. For a non-empty list of components, each non-empty, free of separators
and neither `.` nor `..`, the segments of the cleaned join of the components are
the components, in order, also when a separator is appended to the join before
cleaning; the loop needs one iteration per component and one more. -/
theorem sepFilePath_clean_join (cs : List String) (hne : cs ≠ [])
    (hcs : ∀ c ∈ cs, IsName c.data) :
    ∀ fuel, cs.length + 1 ≤ fuel →
      sepFilePath fuel (filepath.Clean ("/".intercalate cs)) = some cs ∧
      sepFilePath fuel (filepath.Clean ("/".intercalate cs ++ "/")) = some cs := by
  intro fuel hfuel
  have hN : NormalComps (cs.map String.data) :=
    ⟨0, cs.map String.data, by simp [dotdots], by
      intro c hc
      obtain ⟨s, hs, rfl⟩ := List.mem_map.mp hc
      exact hcs s hs⟩
  have hne2 : cs.map String.data ≠ [] := by simpa using hne
  have hmk : (cs.map String.data).map String.mk = cs := by
    rw [List.map_map]
    conv_rhs => rw [← List.map_id cs]
    exact List.map_congr_left (fun s _ => rfl)
  have hj : "/".intercalate cs = ⟨joinSlash (cs.map String.data)⟩ := by
    rw [← intercalate_mk, hmk]
  have hc1 : filepath.Clean ("/".intercalate cs) = ⟨joinSlash (cs.map String.data)⟩ := by
    rw [hj, filepath.Clean]
    have := cleanChars_joinSlash _ hN hne2 [] (Or.inl rfl)
    rw [List.append_nil] at this
    rw [this]
  have hc2 : filepath.Clean ("/".intercalate cs ++ "/") =
      ⟨joinSlash (cs.map String.data)⟩ := by
    rw [hj, filepath.Clean]
    have hd : ((⟨joinSlash (cs.map String.data)⟩ : String) ++ "/").data =
        joinSlash (cs.map String.data) ++ ['/'] := by
      rw [String.data_append]
    rw [hd, cleanChars_joinSlash _ hN hne2 ['/'] (Or.inr rfl)]
  have hs := sepFilePath_pathOf _ hN hne2
  rw [hmk, List.length_map] at hs
  rw [hc1, hc2]
  exact ⟨sepFilePath_mono _ _ _ hs fuel hfuel, sepFilePath_mono _ _ _ hs fuel hfuel⟩

/-- C11 at the components `にほんご.zip`, `にほんご`, with three iterations. -/
theorem sepFilePath_clean_join_witness :
    sepFilePath 3 (filepath.Clean ("/".intercalate ["にほんご.zip", "にほんご"])) =
        some ["にほんご.zip", "にほんご"] ∧
      sepFilePath 3 (filepath.Clean ("/".intercalate ["にほんご.zip", "にほんご"] ++ "/")) =
        some ["にほんご.zip", "にほんご"] :=
  sepFilePath_clean_join ["にほんご.zip", "にほんご"] (by simp) (by
    intro c hc
    simp only [List.mem_cons, List.mem_singleton, List.not_mem_nil, or_false] at hc
    rcases hc with rfl | rfl <;> decide) 3 (by decide)

/-! ## One traversal for `open` and `readDir` -/

/-- On a non-empty segment list `resolve` returns: a target or an error. -/
theorem resolve_isSome (E : Env FSys) (n : Nat) :
    ∀ (V : FSys) (paths : List String), paths.length = n → paths ≠ [] →
      ∃ r, resolve E V paths = some r := by
  induction n with
  | zero =>
    intro V paths h hne
    exact absurd (List.length_eq_zero.mp h) hne
  | succ n ih =>
    intro V paths h _
    match paths, h with
    | [p0], _ =>
      rw [resolve]
      rcases getIsDir E V p0 with ⟨b, _ | e⟩
      · cases b
        · rcases getKind E V p0 with ⟨k, _ | e⟩
          · by_cases hz : k = matchers.TypeZip
            · cases hr : zipNewReader E V p0 <;> simp [hz]
            · simp [hz]
          · simp
        · simp
      · simp
    | p0 :: p1 :: rest, h =>
      have hl : ∀ q : String, (q :: rest).length = n := by
        intro q; simpa using h
      rw [resolve]
      rcases getIsDir E V p0 with ⟨b, _ | e⟩
      · cases b
        · rcases getKind E V p0 with ⟨k, _ | e⟩
          · by_cases hz : k = matchers.TypeZip
            · cases hr : zipNewReader E V p0 with
              | error e => simp [hz]
              | ok zr => simpa [hz] using ih zr (p1 :: rest) (hl p1) (by simp)
            · simp [hz]
          · simp
        · simpa using ih V ((p0 ++ "/" ++ p1) :: rest) (hl _) (by simp)
      · simp

/-- C13. For every view and non-empty segment list, the one function `resolve`
returns either an error or a target `(T, n)`; in the first case `open` and
`readDir` both return that error, in the second `open` returns `T.Open(n)` and
`readDir` returns `readDirWrapper(T, n)`. -/
theorem open_readDir_share_traversal (E : Env FSys) (V : FSys) (segs : List String)
    (hne : segs ≠ []) :
    ∃ r, resolve E V segs = some r ∧
      (∀ T n, r = .ok (T, n) →
        FS.open E V segs = some (E.Open T n) ∧
        FS.readDir E V segs = some (readDirWrapper E T n)) ∧
      (∀ e, r = .error e →
        FS.open E V segs = some (.error e) ∧ FS.readDir E V segs = some (.error e)) := by
  obtain ⟨r, hr⟩ := resolve_isSome E segs.length V segs rfl hne
  refine ⟨r, hr, ?_, ?_⟩
  · intro T n h
    subst h
    rw [open_eq_resolve E segs.length V segs rfl, readDir_eq_resolve E segs.length V segs rfl, hr]
    exact ⟨rfl, rfl⟩
  · intro e h
    subst h
    rw [open_eq_resolve E segs.length V segs rfl, readDir_eq_resolve E segs.length V segs rfl, hr]
    exact ⟨rfl, rfl⟩

/-- C13 at `root.zip` of the demo store. -/
theorem open_readDir_share_traversal_witness :
    ∃ r, resolve demo.env 0 ["root.zip"] = some r ∧
      (∀ T n, r = .ok (T, n) →
        FS.open demo.env 0 ["root.zip"] = some (demo.env.Open T n) ∧
        FS.readDir demo.env 0 ["root.zip"] = some (readDirWrapper demo.env T n)) ∧
      (∀ e, r = .error e →
        FS.open demo.env 0 ["root.zip"] = some (.error e) ∧
        FS.readDir demo.env 0 ["root.zip"] = some (.error e)) :=
  open_readDir_share_traversal demo.env 0 ["root.zip"] (by simp)

/-! ## Classification -/

/-- The buffer of `getKind` after the read: the bytes read, then zeros, 261 in all. -/
theorem readInto_head (f : File) :
    readInto f (List.replicate 261 0) =
      (f.Read 261).take 261 ++ List.replicate (261 - ((f.Read 261).take 261).length) 0 := by
  simp only [readInto, List.length_replicate, List.drop_replicate]

/-- C14. `getKind` returns an error exactly when opening the name fails. When the
name opens, whatever the one `Read` delivers, the classifier is given the bytes
read followed by zeros, 261 bytes in all, `getKind` returns its verdict without
error, and that is `Unknown` when the table has no match for the buffer. -/
theorem getKind_fails_only_when_open_fails (E : Env FSys) (V : FSys) (name : String) :
    ((getKind E V name).2 ≠ none ↔ ∃ e, E.Open V name = .error e) ∧
      ∀ f, E.Open V name = .ok f →
        ((f.Read 261).take 261 ++
            List.replicate (261 - ((f.Read 261).take 261).length) 0).length = 261 ∧
        getKind E V name =
          (E.Matchers ((f.Read 261).take 261 ++
            List.replicate (261 - ((f.Read 261).take 261).length) 0), none) ∧
        (E.Matchers ((f.Read 261).take 261 ++
            List.replicate (261 - ((f.Read 261).take 261).length) 0) = types.Unknown →
          getKind E V name = (types.Unknown, none)) := by
  have hlen : ∀ f : File, ((f.Read 261).take 261 ++
      List.replicate (261 - ((f.Read 261).take 261).length) 0).length = 261 := by
    intro f
    simp only [List.length_append, List.length_replicate, List.length_take]
    omega
  have hok : ∀ f, E.Open V name = .ok f → getKind E V name =
      (E.Matchers ((f.Read 261).take 261 ++
        List.replicate (261 - ((f.Read 261).take 261).length) 0), none) := by
    intro f hf
    unfold getKind
    rw [hf]
    simp only [readInto_head, filetype.Match, hlen f]
    simp
  constructor
  · constructor
    · intro h
      cases hO : E.Open V name with
      | error e => exact ⟨e, rfl⟩
      | ok f => rw [hok f hO] at h; exact absurd rfl h
    · rintro ⟨e, he⟩
      simp [getKind, he]
  · intro f hf
    refine ⟨hlen f, hok f hf, ?_⟩
    intro hu
    rw [hok f hf, hu]

/-- C14 at the two-byte file `note.txt` and at the missing name `bat1` of the demo
store. -/
theorem getKind_fails_only_when_open_fails_witness :
    getKind demo.env 0 "note.txt" = (types.Unknown, none) ∧
      (getKind demo.env 0 "bat1").2 ≠ none :=
  ⟨((getKind_fails_only_when_open_fails demo.env 0 "note.txt").2
      (demo.regFile "note.txt" [0x68, 0x69]) rfl).2.2 (by decide),
    (getKind_fails_only_when_open_fails demo.env 0 "bat1").1.mpr ⟨_, rfl⟩⟩

/-! ## The listing, entry by entry -/

/-- The loop body of `readDirWrapper` keeps the name of the entry. -/
theorem wrapEntry_Name (E : Env FSys) (V : FSys) (d : String) (e : DirEntry) :
    (wrapEntry E V d e).Name = e.Name := by
  unfold wrapEntry
  split
  · rfl
  · split <;> rfl

/-- C18. When the backing listing of `d` succeeds, `readDirWrapper` returns a
listing of the same length with the same names in the same order, in which entry
`i` is the backing entry itself when that is a directory or when the name
`d + "/" + Name` does not classify as zip, and the `VirtualDir` around it
otherwise. A store that differs only in what it opens under other names, among
them the probe names of the directory entries, gives the same listing. -/
theorem readDirWrapper_listing (E : Env FSys) (V : FSys) (d : String)
    (entries : List DirEntry) (hl : E.ReadDir V d = .ok entries) :
    ∃ out, readDirWrapper E V d = .ok out ∧ out.length = entries.length ∧
      out.map DirEntry.Name = entries.map DirEntry.Name ∧
      (∀ (i : Nat) (e : DirEntry), entries[i]? = some e →
        out[i]? = some
          (if e.IsDir = true ∨ (getKind E V (d ++ "/" ++ e.Name)).1 ≠ matchers.TypeZip
            then e else DirEntry.VirtualDir e)) ∧
      (∀ E2 : Env FSys, E2.ReadDir V d = .ok entries → E2.Matchers = E.Matchers →
        (∀ e ∈ entries, e.IsDir = false →
          E2.Open V (d ++ "/" ++ e.Name) = E.Open V (d ++ "/" ++ e.Name)) →
        readDirWrapper E2 V d = .ok out) := by
  refine ⟨entries.map (wrapEntry E V d), by simp [readDirWrapper, hl], by simp, ?_, ?_, ?_⟩
  · rw [List.map_map]
    exact List.map_congr_left (fun e _ => wrapEntry_Name E V d e)
  · intro i e hi
    rw [List.getElem?_map, hi, Option.map_some']
    congr 1
    unfold wrapEntry
    by_cases hd : e.IsDir = true
    · simp [hd]
    · by_cases hk : (getKind E V (d ++ "/" ++ e.Name)).1 = matchers.TypeZip
      · simp [hd, hk]
      · simp [hd, hk]
  · intro E2 hl2 hm ho
    simp only [readDirWrapper, hl2]
    congr 1
    apply List.map_congr_left
    intro e he
    unfold wrapEntry
    by_cases hd : e.IsDir = true
    · simp [hd]
    · have hd2 : e.IsDir = false := by simpa using hd
      have : getKind E2 V (d ++ "/" ++ e.Name) = getKind E V (d ++ "/" ++ e.Name) := by
        simp only [getKind, ho e he hd2, filetype.Match, hm]
      rw [this]

/-- C18 at the directory `cat1` of the demo store. -/
theorem readDirWrapper_listing_witness :
    ∃ out, readDirWrapper demo.env 0 "cat1" = .ok out ∧
      out.length = [demo.dirEntry "cat2", demo.regEntry "inner.zip" 8].length ∧
      out.map DirEntry.Name =
        [demo.dirEntry "cat2", demo.regEntry "inner.zip" 8].map DirEntry.Name ∧
      (∀ (i : Nat) (e : DirEntry), [demo.dirEntry "cat2", demo.regEntry "inner.zip" 8][i]? = some e →
        out[i]? = some
          (if e.IsDir = true ∨
              (getKind demo.env 0 ("cat1" ++ "/" ++ e.Name)).1 ≠ matchers.TypeZip
            then e else DirEntry.VirtualDir e)) ∧
      (∀ E2 : Env Nat,
        E2.ReadDir 0 "cat1" = .ok [demo.dirEntry "cat2", demo.regEntry "inner.zip" 8] →
        E2.Matchers = demo.env.Matchers →
        (∀ e ∈ [demo.dirEntry "cat2", demo.regEntry "inner.zip" 8], e.IsDir = false →
          E2.Open 0 ("cat1" ++ "/" ++ e.Name) = demo.env.Open 0 ("cat1" ++ "/" ++ e.Name)) →
        readDirWrapper E2 0 "cat1" = .ok out) :=
  readDirWrapper_listing demo.env 0 "cat1"
    [demo.dirEntry "cat2", demo.regEntry "inner.zip" 8] rfl

/-! ## The invocations of a resolution -/

/-- The result of `FS.walk` with `Open` as terminal action is that of `FS.open`. -/
theorem walk_open (E : Env FSys) (n : Nat) :
    ∀ (k : CallKind) (V : FSys) (paths : List String), paths.length = n →
      (FS.walk E E.Open k V paths).1 = FS.open E V paths := by
  induction n with
  | zero =>
    intro k V paths h
    have : paths = [] := List.length_eq_zero.mp h
    subst this
    rw [FS.walk, FS.open]
  | succ n ih =>
    intro k V paths h
    match paths, h with
    | [p0], _ =>
      rw [FS.walk, FS.open]
    | p0 :: p1 :: rest, h =>
      have hl : ∀ q : String, (q :: rest).length = n := by
        intro q; simpa using h
      rw [FS.walk, FS.open]
      rcases hd : getIsDir E V p0 with ⟨b, _ | e⟩
      · cases b
        · rcases hk : getKind E V p0 with ⟨kd, _ | e⟩
          · by_cases hz : kd = matchers.TypeZip
            · cases hr : zipNewReader E V p0 with
              | error e => simp [hz]
              | ok zr => simpa [hz] using ih .archive zr (p1 :: rest) (hl p1)
            · simp [hz]
          · simp
        · simpa using ih .dirMerge V ((p0 ++ "/" ++ p1) :: rest) (hl _)
      · simp

/-- The result of `FS.walk` with `readDirWrapper` as terminal action is that of
`FS.readDir`. -/
theorem walk_readDir (E : Env FSys) (n : Nat) :
    ∀ (k : CallKind) (V : FSys) (paths : List String), paths.length = n →
      (FS.walk E (readDirWrapper E) k V paths).1 = FS.readDir E V paths := by
  induction n with
  | zero =>
    intro k V paths h
    have : paths = [] := List.length_eq_zero.mp h
    subst this
    rw [FS.walk, FS.readDir]
  | succ n ih =>
    intro k V paths h
    match paths, h with
    | [p0], _ =>
      rw [FS.walk, FS.readDir]
    | p0 :: p1 :: rest, h =>
      have hl : ∀ q : String, (q :: rest).length = n := by
        intro q; simpa using h
      rw [FS.walk, FS.readDir]
      rcases hd : getIsDir E V p0 with ⟨b, _ | e⟩
      · cases b
        · rcases hk : getKind E V p0 with ⟨kd, _ | e⟩
          · by_cases hz : kd = matchers.TypeZip
            · cases hr : zipNewReader E V p0 with
              | error e => simp [hz]
              | ok zr => simpa [hz] using ih .archive zr (p1 :: rest) (hl p1)
            · simp [hz]
          · simp
        · simpa using ih .dirMerge V ((p0 ++ "/" ++ p1) :: rest) (hl _)
      · simp

/-- The invocations made on a non-empty segment list of length `n`: there is a
result, the first invocation is the given one, there are at most `n` of them, the
`i`-th has a list of `n - i` segments, and none after the first is `initial`. -/
theorem walk_trace {α : Type} (E : Env FSys) (term : FSys → String → Except String α)
    (n : Nat) :
    ∀ (k : CallKind) (V : FSys) (paths : List String), paths.length = n → paths ≠ [] →
      (FS.walk E term k V paths).1 ≠ none ∧
      (∃ tl, (FS.walk E term k V paths).2 = ⟨k, V, paths⟩ :: tl ∧ tl.length + 1 ≤ n ∧
        (∀ c ∈ tl, c.kind ≠ .initial) ∧
        ∀ (i : Nat) (c : Call FSys), tl[i]? = some c → c.paths.length + (i + 1) = n) := by
  induction n with
  | zero =>
    intro k V paths h hne
    exact absurd (List.length_eq_zero.mp h) hne
  | succ n ih =>
    intro k V paths h _
    match paths, h with
    | [p0], h =>
      rw [FS.walk]
      refine ⟨?_, [], rfl, by simp, by simp, by simp⟩
      rcases getIsDir E V p0 with ⟨b, _ | e⟩
      · cases b
        · rcases getKind E V p0 with ⟨kd, _ | e⟩
          · by_cases hz : kd = matchers.TypeZip
            · cases hr : zipNewReader E V p0 <;> simp [hz]
            · simp [hz]
          · simp
        · simp
      · simp
    | p0 :: p1 :: rest, h =>
      have hl : ∀ q : String, (q :: rest).length = n := by
        intro q; simpa using h
      have hrec : ∀ (k2 : CallKind) (V2 : FSys) (q : String), k2 ≠ .initial →
          let r := FS.walk E term k2 V2 (q :: rest)
          (r.1, (⟨k, V, p0 :: p1 :: rest⟩ : Call FSys) :: r.2).1 ≠ none ∧
          ∃ tl, (r.1, (⟨k, V, p0 :: p1 :: rest⟩ : Call FSys) :: r.2).2 =
              ⟨k, V, p0 :: p1 :: rest⟩ :: tl ∧ tl.length + 1 ≤ n + 1 ∧
            (∀ c ∈ tl, c.kind ≠ .initial) ∧
            ∀ (i : Nat) (c : Call FSys), tl[i]? = some c →
              c.paths.length + (i + 1) = n + 1 := by
        intro k2 V2 q hk2
        obtain ⟨h1, tl, h2, h3, h4, h5⟩ := ih k2 V2 (q :: rest) (hl q) (by simp)
        refine ⟨h1, _, rfl, ?_, ?_, ?_⟩
        · rw [h2]; simp; omega
        · intro c hc
          rw [h2] at hc
          rcases List.mem_cons.mp hc with rfl | hc
          · exact hk2
          · exact h4 c hc
        · intro i c hi
          rw [h2] at hi
          cases i with
          | zero =>
            simp only [List.getElem?_cons_zero, Option.some.injEq] at hi
            subst hi
            simp [hl q]
          | succ i =>
            simp only [List.getElem?_cons_succ] at hi
            have := h5 i c hi
            omega
      rw [FS.walk]
      rcases hd : getIsDir E V p0 with ⟨b, _ | e⟩
      · cases b
        · rcases hk : getKind E V p0 with ⟨kd, _ | e⟩
          · by_cases hz : kd = matchers.TypeZip
            · cases hr : zipNewReader E V p0 with
              | error e => simp [hz]
              | ok zr => simpa [hz] using hrec .archive zr p1 (by simp)
            · simp [hz]
          · simp
        · simpa using hrec .dirMerge V (p0 ++ "/" ++ p1) (by simp)
      · simp

/-- C15. Whatever the name, when `sepFilePath` returns on the cleaned name its
list of segments is not empty, and every invocation of `open` and of `readDir`
that follows from it is given a non-empty list, so that the indexing in them does
not go out of range: `Open` and `ReadDir` do not end in a panic. -/
theorem invocations_get_nonempty_lists (E : Env FSys) (V : FSys) (fuel : Nat)
    (name : String) (segs : List String)
    (h : sepFilePath fuel (filepath.Clean name) = some segs) :
    segs ≠ [] ∧
      (∀ c ∈ (FS.walk E E.Open .initial V segs).2, c.paths ≠ []) ∧
      (∀ c ∈ (FS.walk E (readDirWrapper E) .initial V segs).2, c.paths ≠ []) ∧
      FS.Open E V fuel name = some (FS.open E V segs) ∧ FS.open E V segs ≠ none ∧
      FS.ReadDir E V fuel name = some (FS.readDir E V segs) ∧
      FS.readDir E V segs ≠ none := by
  have hne : segs ≠ [] := by
    unfold sepFilePath at h
    cases hl : sepFilePath.loop fuel (filepath.Clean name) [] with
    | none => simp [hl] at h
    | some ret =>
      simp only [hl, Option.some.injEq] at h
      subst h
      by_cases h0 : ret.length = 0
      · simp [h0]
      · have : ret ≠ [] := fun hr => h0 (by simp [hr])
        simp [h0, this]
  have hmem : ∀ {α : Type} (term : FSys → String → Except String α),
      ∀ c ∈ (FS.walk E term .initial V segs).2, c.paths ≠ [] := by
    intro α term c hc
    obtain ⟨_, tl, h2, h3, _, h5⟩ := walk_trace E term segs.length .initial V segs rfl hne
    rw [h2] at hc
    rcases List.mem_cons.mp hc with rfl | hc
    · exact hne
    · obtain ⟨i, hi, hget⟩ := List.mem_iff_getElem.mp hc
      have := h5 i c (by rw [List.getElem?_eq_getElem hi, hget])
      intro h0
      rw [h0] at this
      simp at this
      omega
  have ho := (walk_trace E E.Open segs.length .initial V segs rfl hne).1
  have hr := (walk_trace E (readDirWrapper E) segs.length .initial V segs rfl hne).1
  rw [walk_open E segs.length .initial V segs rfl] at ho
  rw [walk_readDir E segs.length .initial V segs rfl] at hr
  exact ⟨hne, hmem E.Open, hmem (readDirWrapper E), by simp [FS.Open, h], ho,
    by simp [FS.ReadDir, h], hr⟩

/-- C15 at the name `cat1/cat2` on the demo store. -/
theorem invocations_get_nonempty_lists_witness :
    ["cat1", "cat2"] ≠ [] ∧
      (∀ c ∈ (FS.walk demo.env demo.env.Open .initial 0 ["cat1", "cat2"]).2, c.paths ≠ []) ∧
      (∀ c ∈ (FS.walk demo.env (readDirWrapper demo.env) .initial 0 ["cat1", "cat2"]).2,
        c.paths ≠ []) ∧
      FS.Open demo.env 0 3 "cat1/cat2" = some (FS.open demo.env 0 ["cat1", "cat2"]) ∧
      FS.open demo.env 0 ["cat1", "cat2"] ≠ none ∧
      FS.ReadDir demo.env 0 3 "cat1/cat2" = some (FS.readDir demo.env 0 ["cat1", "cat2"]) ∧
      FS.readDir demo.env 0 ["cat1", "cat2"] ≠ none :=
  invocations_get_nonempty_lists demo.env 0 3 "cat1/cat2" ["cat1", "cat2"] (by decide)

/-- C19. On a non-empty list of `n` segments `open` and `readDir` return a value or
an error. Of the invocations made, the `i`-th (from 0) is given `n - i` segments,
so each recursive call has one segment less than its caller; there are at most
`n` invocations, hence at most `n - 1` recursive calls, and at most `n - 1` of
them are archive steps. -/
theorem resolution_is_bounded_by_segments (E : Env FSys) (V : FSys) (segs : List String)
    (hne : segs ≠ []) :
    FS.open E V segs ≠ none ∧ FS.readDir E V segs ≠ none ∧
      ∀ tr : List (Call FSys),
        (tr = (FS.walk E E.Open .initial V segs).2 ∨
          tr = (FS.walk E (readDirWrapper E) .initial V segs).2) →
        tr.length - 1 ≤ segs.length - 1 ∧
        (∀ (i : Nat) (c : Call FSys), tr[i]? = some c → c.paths.length + i = segs.length) ∧
        (tr.filter (fun c => c.kind = .archive)).length ≤ segs.length - 1 := by
  have ho := (walk_trace E E.Open segs.length .initial V segs rfl hne).1
  have hr := (walk_trace E (readDirWrapper E) segs.length .initial V segs rfl hne).1
  rw [walk_open E segs.length .initial V segs rfl] at ho
  rw [walk_readDir E segs.length .initial V segs rfl] at hr
  have key : ∀ {α : Type} (term : FSys → String → Except String α),
      ((FS.walk E term .initial V segs).2.length - 1 ≤ segs.length - 1 ∧
        (∀ (i : Nat) (c : Call FSys), (FS.walk E term .initial V segs).2[i]? = some c →
          c.paths.length + i = segs.length) ∧
        ((FS.walk E term .initial V segs).2.filter (fun c => c.kind = .archive)).length ≤
          segs.length - 1) := by
    intro α term
    obtain ⟨_, tl, h2, h3, _, h5⟩ := walk_trace E term segs.length .initial V segs rfl hne
    rw [h2]
    refine ⟨by simp; omega, ?_, ?_⟩
    · intro i c hi
      cases i with
      | zero =>
        simp only [List.getElem?_cons_zero, Option.some.injEq] at hi
        subst hi
        rfl
      | succ i =>
        simp only [List.getElem?_cons_succ] at hi
        exact h5 i c hi
    · rw [List.filter_cons]
      have hf := List.length_filter_le (fun c : Call FSys => decide (c.kind = .archive)) tl
      simp only [show ¬ (CallKind.initial = CallKind.archive) by decide, decide_False,
        Bool.false_eq_true, if_false]
      omega
  refine ⟨ho, hr, ?_⟩
  rintro tr (rfl | rfl)
  · exact key E.Open
  · exact key (readDirWrapper E)

/-- C19 at `root.zip/cat1744.jpg` of the demo store. -/
theorem resolution_is_bounded_by_segments_witness :
    FS.open demo.env 0 ["root.zip", "cat1744.jpg"] ≠ none ∧
      FS.readDir demo.env 0 ["root.zip", "cat1744.jpg"] ≠ none ∧
      ∀ tr : List (Call Nat),
        (tr = (FS.walk demo.env demo.env.Open .initial 0 ["root.zip", "cat1744.jpg"]).2 ∨
          tr = (FS.walk demo.env (readDirWrapper demo.env) .initial 0
            ["root.zip", "cat1744.jpg"]).2) →
        tr.length - 1 ≤ ["root.zip", "cat1744.jpg"].length - 1 ∧
        (∀ (i : Nat) (c : Call Nat), tr[i]? = some c →
          c.paths.length + i = ["root.zip", "cat1744.jpg"].length) ∧
        (tr.filter (fun c => c.kind = .archive)).length ≤
          ["root.zip", "cat1744.jpg"].length - 1 :=
  resolution_is_bounded_by_segments demo.env 0 ["root.zip", "cat1744.jpg"] (by simp)

/-! ## The segment sequence as a Go slice -/

/-- A slice that is not empty is its first element followed by the slice from the
next index on. -/
theorem drop_eq_getD_cons (mem : List String) (off : Nat) (h : off < mem.length) :
    mem.drop off = mem.getD off "" :: mem.drop (off + 1) := by
  rw [List.getD_eq_getElem mem "" h]
  exact List.drop_eq_getElem_cons h

/-- The slice from the next index on, after a write at that index. -/
theorem drop_set_succ (mem : List String) (off : Nat) (x : String)
    (h : off + 1 < mem.length) :
    (mem.set (off + 1) x).drop (off + 1) = x :: mem.drop (off + 2) := by
  have hl : off + 1 < (mem.set (off + 1) x).length := by simpa using h
  rw [List.drop_eq_getElem_cons hl]
  simp [List.drop_set]

/-- The result of the traversal on slices is the result of the traversal on the
list of the elements of the slice. -/
theorem walkInPlace_result {α : Type} (E : Env FSys)
    (term : FSys → String → Except String α) (d : Nat) :
    ∀ (k : CallKind) (V : FSys) (mem : List String) (off : Nat), mem.length - off = d →
      (FS.walkInPlace E term V mem off).1 = (FS.walk E term k V (mem.drop off)).1 := by
  induction d using Nat.strong_induction_on with
  | _ d ih =>
    intro k V mem off hd
    rw [FS.walkInPlace]
    by_cases h1 : mem.length ≤ off
    · rw [if_pos h1, List.drop_eq_nil_of_le h1, FS.walk]
    · rw [if_neg h1]
      have hlt : off < mem.length := Nat.lt_of_not_le h1
      by_cases h2 : off + 1 = mem.length
      · rw [if_pos h2, drop_eq_getD_cons mem off hlt,
          List.drop_eq_nil_of_le (Nat.le_of_eq h2.symm), FS.walk]
      · rw [if_neg h2]
        have hlt2 : off + 1 < mem.length := by omega
        rw [drop_eq_getD_cons mem off hlt, drop_eq_getD_cons mem (off + 1) hlt2, FS.walk]
        rcases hg : getIsDir E V (mem.getD off "") with ⟨b, _ | e⟩
        · cases b
          · rcases hk : getKind E V (mem.getD off "") with ⟨kd, _ | e⟩
            · by_cases hz : kd = matchers.TypeZip
              · cases hr : zipNewReader E V (mem.getD off "") with
                | error e => simp [hz]
                | ok zr =>
                  simp only [hz, if_true]
                  rw [ih (mem.length - (off + 1)) (by omega) .archive zr mem (off + 1) rfl,
                    drop_eq_getD_cons mem (off + 1) hlt2]
              · simp [hz]
            · simp
          · simp only
            rw [ih (mem.length - (off + 1)) (by omega) .dirMerge V _ (off + 1) (by simp),
              drop_set_succ mem off _ hlt2]
        · simp

/-- What a call leaves in the backing array: the length and the elements up to
its own first one are as before; each later element is as before, or the join of
the element that now precedes it with its old value. -/
theorem walkInPlace_mem {α : Type} (E : Env FSys)
    (term : FSys → String → Except String α) (d : Nat) :
    ∀ (V : FSys) (mem : List String) (off : Nat), mem.length - off = d →
      (FS.walkInPlace E term V mem off).2.length = mem.length ∧
      (∀ j : Nat, j ≤ off → (FS.walkInPlace E term V mem off).2[j]? = mem[j]?) ∧
      (∀ j : Nat, off < j →
        (FS.walkInPlace E term V mem off).2[j]? = mem[j]? ∨
        ∃ a b, (FS.walkInPlace E term V mem off).2[j - 1]? = some a ∧ mem[j]? = some b ∧
          (FS.walkInPlace E term V mem off).2[j]? = some (a ++ "/" ++ b)) := by
  induction d using Nat.strong_induction_on with
  | _ d ih =>
    intro V mem off hd
    rw [FS.walkInPlace]
    by_cases h1 : mem.length ≤ off
    · rw [if_pos h1]; exact ⟨rfl, fun _ _ => rfl, fun _ _ => Or.inl rfl⟩
    · rw [if_neg h1]
      have hlt : off < mem.length := Nat.lt_of_not_le h1
      by_cases h2 : off + 1 = mem.length
      · rw [if_pos h2]; exact ⟨rfl, fun _ _ => rfl, fun _ _ => Or.inl rfl⟩
      · rw [if_neg h2]
        have hlt2 : off + 1 < mem.length := by omega
        rcases hg : getIsDir E V (mem.getD off "") with ⟨b, _ | e⟩
        · cases b
          · rcases hk : getKind E V (mem.getD off "") with ⟨kd, _ | e⟩
            · by_cases hz : kd = matchers.TypeZip
              · cases hr : zipNewReader E V (mem.getD off "") with
                | error e =>
                  dsimp only
                  rw [if_pos hz]
                  exact ⟨rfl, fun _ _ => rfl, fun _ _ => Or.inl rfl⟩
                | ok zr =>
                  dsimp only
                  rw [if_pos hz]
                  obtain ⟨i1, i2, i3⟩ :=
                    ih (mem.length - (off + 1)) (by omega) zr mem (off + 1) rfl
                  refine ⟨i1, fun j hj => i2 j (by omega), fun j hj => ?_⟩
                  by_cases hj2 : j = off + 1
                  · exact Or.inl (i2 j (by omega))
                  · exact i3 j (by omega)
              · dsimp only
                rw [if_neg hz]
                exact ⟨rfl, fun _ _ => rfl, fun _ _ => Or.inl rfl⟩
            · dsimp only
              exact ⟨rfl, fun _ _ => rfl, fun _ _ => Or.inl rfl⟩
          · dsimp only
            obtain ⟨i1, i2, i3⟩ := ih (mem.length - (off + 1)) (by omega) V
              (mem.set (off + 1) (mem.getD off "" ++ "/" ++ mem.getD (off + 1) ""))
              (off + 1) (by simp)
            have hset : ∀ j : Nat, j ≠ off + 1 →
                (mem.set (off + 1) (mem.getD off "" ++ "/" ++ mem.getD (off + 1) ""))[j]? =
                  mem[j]? := by
              intro j hj
              rw [List.getElem?_set_ne (Ne.symm hj)]
            refine ⟨by rw [i1]; simp, fun j hj => ?_, fun j hj => ?_⟩
            · rw [i2 j (by omega), hset j (by omega)]
            · by_cases hj2 : j = off + 1
              · subst hj2
                right
                refine ⟨mem.getD off "", mem.getD (off + 1) "", ?_, ?_, ?_⟩
                · rw [Nat.add_sub_cancel, i2 off (by omega), hset off (by omega),
                    List.getD_eq_getElem mem "" hlt, List.getElem?_eq_getElem hlt]
                · rw [List.getD_eq_getElem mem "" hlt2, List.getElem?_eq_getElem hlt2]
                · rw [i2 (off + 1) (Nat.le_refl _), List.getElem?_set_self hlt2]
              · rcases i3 j (by omega) with h | ⟨a, b, ha, hb, hab⟩
                · left; rw [h, hset j hj2]
                · right; exact ⟨a, b, ha, by rw [← hset j hj2]; exact hb, hab⟩
        · cases b <;> exact ⟨rfl, fun _ _ => rfl, fun _ _ => Or.inl rfl⟩

/-- C16 at `cat1/cat2` of the demo store: when `open` or `readDir` returns from
the sequence `[cat1, cat2]`, the sequence that the caller holds is
`[cat1, cat1/cat2]`: its second element has been overwritten by the merge step. -/
theorem merge_step_overwrites_callers_sequence :
    (FS.walkInPlace demo.env demo.env.Open 0 ["cat1", "cat2"] 0).2 = ["cat1", "cat1/cat2"] ∧
      (FS.walkInPlace demo.env (readDirWrapper demo.env) 0 ["cat1", "cat2"] 0).2 =
        ["cat1", "cat1/cat2"] ∧
      (["cat1", "cat1/cat2"] : List String) ≠ ["cat1", "cat2"] := by
  have h1 : getIsDir demo.env 0 "cat1" = (true, none) := rfl
  have h2 : getIsDir demo.env 0 "cat1/cat2" = (true, none) := rfl
  have hj : "cat1" ++ "/" ++ "cat2" = "cat1/cat2" := by decide
  refine ⟨?_, ?_, by decide⟩
  · rw [FS.walkInPlace]
    simp only [List.length_cons, List.length_nil, List.getD_cons_zero, List.getD_cons_succ, h1]
    rw [FS.walkInPlace]
    simp [hj, h2]
  · rw [FS.walkInPlace]
    simp only [List.length_cons, List.length_nil, List.getD_cons_zero, List.getD_cons_succ, h1]
    rw [FS.walkInPlace]
    simp [hj, h2]

/-! ## Rooted paths -/

/-- Stepping back over an element without separator stops at `dotdot`, where the
element begins. -/
theorem backtrack_stop_at_dotdot (A x : List Char) (hx : '/' ∉ x) :
    ∀ k, k < x.length → filepath.backtrack (A ++ x) A.length (A.length + k) = A.length := by
  intro k
  induction k with
  | zero =>
    intro _
    cases hA : A.length with
    | zero => rfl
    | succ m => rw [Nat.add_zero, filepath.backtrack, if_neg (fun h => Nat.lt_irrefl _ h.1)]
  | succ k ih =>
    intro hk
    have hget : (A ++ x).getD (A.length + k + 1) '/' ≠ '/' := by
      have hlt : A.length + k + 1 < (A ++ x).length := by simp; omega
      rw [List.getD_eq_getElem _ '/' hlt]
      have : (A ++ x)[A.length + k + 1] = x[k + 1] := by
        rw [List.getElem_append_right (by omega)]
        simp [show A.length + k + 1 - A.length = k + 1 by omega]
      rw [this]
      intro h
      exact hx (h ▸ List.getElem_mem hk)
    rw [← Nat.add_assoc, filepath.backtrack, if_pos ⟨by omega, hget⟩]
    exact ih (Nat.lt_of_succ_lt hk)

/-- Removing the last element of a rooted output. -/
theorem take_backtrack_rooted (P : List (List Char)) (x : List Char)
    (hx0 : x ≠ []) (hx : '/' ∉ x) :
    ('/' :: joinSlash (P ++ [x])).take
        (filepath.backtrack ('/' :: joinSlash (P ++ [x])) 1
          (('/' :: joinSlash (P ++ [x])).length - 1)) =
      '/' :: joinSlash P := by
  have hxl : 0 < x.length := List.length_pos.mpr hx0
  by_cases h : P = []
  · subst h
    simp only [List.nil_append, joinSlash]
    have hb := backtrack_stop_at_dotdot ['/'] x hx (x.length - 1) (by omega)
    have hl : ('/' :: x).length - 1 = ['/'].length + (x.length - 1) := by simp; omega
    rw [hl]
    simp only [List.singleton_append, List.length_singleton] at hb ⊢
    rw [hb]
    simp
  · rw [joinSlash_snoc P x h]
    have hb := backtrack_slash ('/' :: joinSlash P) x 1 hx (by simp) x.length (Nat.le_refl _)
    have hl : ('/' :: (joinSlash P ++ '/' :: x)).length - 1 =
        ('/' :: joinSlash P).length + x.length := by simp; omega
    rw [hl]
    simp only [List.cons_append] at hb
    rw [hb]
    simp

/-- The separator before a real element of a rooted output. -/
theorem elemSep_rooted (names : List (List Char)) (x : List Char)
    (hne : ∀ c ∈ names, c ≠ []) :
    elemSep true ('/' :: joinSlash names) ++ x = '/' :: joinSlash (names ++ [x]) := by
  by_cases h : names = []
  · subst h; simp [elemSep, joinSlash]
  · have hj : joinSlash names ≠ [] := fun h0 => h ((joinSlash_eq_nil names hne).mp h0)
    rw [joinSlash_snoc names x h]
    simp [elemSep, hj]

theorem rooted_length_lt (names : List (List Char)) (x : List Char) (hx : x ≠ []) :
    1 < ('/' :: joinSlash (names ++ [x])).length := by
  have := joinSlash_length_lt [] names x hx
  simp only [List.nil_append, joinSlash, List.length_nil] at this
  simp only [List.length_cons]
  omega

/-- On a rooted path the loop of `Clean` keeps an output of the form `/`, then
names joined by separators. -/
theorem cleanLoop_rooted_normal (n : Nat) :
    ∀ rest : List Char, rest.length ≤ n →
    ∀ (out : List Char) (names : List (List Char)),
      (∀ c ∈ names, IsName c) →
      (out = '/' :: joinSlash names →
        ∃ names2, (∀ c ∈ names2, IsName c) ∧
          filepath.cleanLoop true false rest out 1 = '/' :: joinSlash names2) ∧
      (∀ x, x ≠ [] → '/' ∉ x → IsName (x ++ rest.takeWhile (· ≠ '/')) →
        out = '/' :: joinSlash (names ++ [x]) →
        ∃ names2, (∀ c ∈ names2, IsName c) ∧
          filepath.cleanLoop true true rest out 1 = '/' :: joinSlash names2) := by
  induction n using Nat.strong_induction_on with
  | _ n ih =>
    intro rest hlen out names hn
    have hne : ∀ c ∈ names, c ≠ [] := fun c hc => (hn c hc).1
    constructor
    · intro hout
      cases rest with
      | nil => exact ⟨names, hn, by rw [cleanLoop_false_nil, hout]⟩
      | cons a t =>
        have htl : t.length < n := by simpa using hlen
        by_cases ha : a = '/'
        · subst ha
          rw [cleanLoop_false_slash]
          exact (ih t.length htl t (Nat.le_refl _) out names hn).1 hout
        by_cases hdot : a = '.' ∧ (t = [] ∨ t.head? = some '/')
        · rw [hdot.1, cleanLoop_dot true t out _ hdot.2]
          exact (ih t.length htl t (Nat.le_refl _) out names hn).1 hout
        by_cases hdd : ∃ t2, t = '.' :: t2 ∧ a = '.' ∧ (t2 = [] ∨ t2.head? = some '/')
        · obtain ⟨t2, ht, ha2, ht2⟩ := hdd
          subst ht ha2
          have htl2 : t2.length < n := by simp at htl; omega
          rw [cleanLoop_dotdot true t2 out _ ht2]
          rcases eq_nil_or_snoc names with hnil | ⟨names1, x, hx⟩
          · subst hnil
            have hl : ¬ 1 < out.length := by rw [hout]; simp [joinSlash]
            rw [if_neg hl]
            simp only [Bool.not_true, Bool.false_eq_true, if_false]
            exact (ih t2.length htl2 t2 (Nat.le_refl _) out [] hn).1 hout
          · subst hx
            have hxn : IsName x := hn x (by simp)
            have hn1 : ∀ c ∈ names1, IsName c := fun c hc => hn c (by simp [hc])
            have hl : 1 < out.length := by rw [hout]; exact rooted_length_lt names1 x hxn.1
            rw [if_pos hl, hout, take_backtrack_rooted names1 x hxn.1 hxn.2.1]
            exact (ih t2.length htl2 t2 (Nat.le_refl _) _ names1 hn1).1 rfl
        · have h2 : ∀ t2, t = '.' :: t2 → ¬(a = '.' ∧ (t2 = [] ∨ t2.head? = some '/')) := by
            intro t2 ht h
            exact hdd ⟨t2, ht, h.1, h.2⟩
          rw [cleanLoop_elem true a t out _ ha hdot h2]
          have hname : IsName ([a] ++ t.takeWhile (· ≠ '/')) := by
            refine ⟨by simp, ?_, ?_, ?_⟩
            · intro h
              rcases List.mem_append.mp h with h | h
              · simp at h; exact ha h.symm
              · exact not_slash_of_mem_takeWhile t h
            · intro h
              simp only [List.singleton_append, List.cons.injEq] at h
              exact hdot ⟨h.1, takeWhile_ne_slash_eq_nil t h.2⟩
            · intro h
              simp only [List.singleton_append, List.cons.injEq] at h
              obtain ⟨ha1, htw⟩ := h
              cases t with
              | nil => simp at htw
              | cons c t2 =>
                by_cases hc : c = '/'
                · simp [List.takeWhile_cons, hc] at htw
                · simp only [List.takeWhile_cons, hc, ne_eq, not_false_eq_true, decide_True,
                    if_true, List.cons.injEq] at htw
                  exact h2 t2 (by rw [htw.1]) ⟨ha1, takeWhile_ne_slash_eq_nil t2 htw.2⟩
          have hout3 : elemSep true out ++ [a] = '/' :: joinSlash (names ++ [[a]]) := by
            rw [hout, elemSep_rooted names [a] hne]
          exact (ih t.length htl t (Nat.le_refl _) _ names hn).2 [a] (by simp)
            (by simpa using fun h => ha h.symm) hname hout3
    · intro x hx0 hxs hname hout
      cases rest with
      | nil =>
        refine ⟨names ++ [x], ?_, ?_⟩
        · intro c hc
          rcases List.mem_append.mp hc with h | h
          · exact hn c h
          · simp at h; subst h; simpa using hname
        · rw [cleanLoop_true_nil, hout]
      | cons a t =>
        have htl : t.length < n := by simpa using hlen
        by_cases ha : a = '/'
        · subst ha
          rw [cleanLoop_true_slash]
          have hxn : IsName x := by simpa using hname
          have hn2 : ∀ c ∈ names ++ [x], IsName c := by
            intro c hc
            rcases List.mem_append.mp hc with h | h
            · exact hn c h
            · simp at h; subst h; exact hxn
          exact (ih t.length htl t (Nat.le_refl _) out (names ++ [x]) hn2).1 hout
        · have hstep : filepath.cleanLoop true true (a :: t) out 1 =
              filepath.cleanLoop true true t (out ++ [a]) 1 := by
            rw [filepath.cleanLoop]; simp [ha]
          rw [hstep]
          have hout2 : out ++ [a] = '/' :: joinSlash (names ++ [x ++ [a]]) := by
            rw [hout]
            by_cases hP : names = []
            · rw [hP]; simp [joinSlash]
            · rw [joinSlash_snoc _ _ hP, joinSlash_snoc _ _ hP]; simp
          have hname2 : IsName ((x ++ [a]) ++ t.takeWhile (· ≠ '/')) := by
            have : (a :: t).takeWhile (· ≠ '/') = a :: t.takeWhile (· ≠ '/') := by
              simp [List.takeWhile_cons, ha]
            rw [this] at hname
            simpa using hname
          exact (ih t.length htl t (Nat.le_refl _) _ names hn).2 (x ++ [a]) (by simp)
            (by
              intro h
              rcases List.mem_append.mp h with h | h
              · exact hxs h
              · simp at h; exact ha h.symm)
            hname2 hout2

/-- `Clean` returns a rooted path in normal form: `/`, then names joined by
separators. -/
theorem cleanChars_rooted_normal (path : List Char) (hroot : path.head? = some '/') :
    ∃ names, (∀ c ∈ names, IsName c) ∧ filepath.cleanChars path = '/' :: joinSlash names := by
  cases path with
  | nil => simp at hroot
  | cons a t =>
    have ha : a = '/' := by simpa using hroot
    subst ha
    obtain ⟨names, hn, hout⟩ :=
      (cleanLoop_rooted_normal t.length t (Nat.le_refl _) ['/'] [] (by simp)).1
        (by simp [joinSlash])
    refine ⟨names, hn, ?_⟩
    simp [filepath.cleanChars, hout]

/-- One real element read by the loop of `Clean`, rooted or not. -/
theorem cleanLoop_name_step_any (r : Bool) (c tail out : List Char) (d : Nat)
    (hc : IsName c) (htail : tail = [] ∨ tail.head? = some '/') :
    filepath.cleanLoop r false (c ++ tail) out d =
      filepath.cleanLoop r false (tail.drop 1) (elemSep r out ++ c) d := by
  obtain ⟨hc0, hcs, hc1, hc2⟩ := hc
  cases c with
  | nil => exact absurd rfl hc0
  | cons a c1 =>
    have ha : a ≠ '/' := fun h => hcs (by simp [h])
    have hcs1 : '/' ∉ c1 := fun h => hcs (by simp [h])
    have hhead : ∀ (l : List Char), l ≠ [] → '/' ∉ l → ∀ q, (l ++ q).head? ≠ some '/' := by
      intro l hl hls q
      cases l with
      | nil => exact absurd rfl hl
      | cons b l => simpa using fun h => hls (by simp [h])
    have h1 : ¬(a = '.' ∧ (c1 ++ tail = [] ∨ (c1 ++ tail).head? = some '/')) := by
      rintro ⟨ha1, h⟩
      have hc1ne : c1 ≠ [] := by
        intro h0; subst h0; subst ha1; exact hc1 rfl
      rcases h with h | h
      · exact hc1ne (List.append_eq_nil.mp h).1
      · exact hhead c1 hc1ne hcs1 tail h
    have h2 : ∀ t2, c1 ++ tail = '.' :: t2 →
        ¬(a = '.' ∧ (t2 = [] ∨ t2.head? = some '/')) := by
      rintro t2 ht ⟨ha1, h⟩
      cases c1 with
      | nil =>
        simp only [List.nil_append] at ht
        rcases htail with h0 | h0
        · rw [h0] at ht; cases ht
        · rw [ht] at h0; simp at h0
      | cons b c2 =>
        simp only [List.cons_append, List.cons.injEq] at ht
        obtain ⟨hb, ht⟩ := ht
        have hc2ne : c2 ≠ [] := by
          intro h0; subst h0; subst ha1; subst hb; exact hc2 rfl
        have hcs2 : '/' ∉ c2 := fun h => hcs1 (by simp [h])
        rcases h with h | h
        · rw [← ht] at h; exact hc2ne (List.append_eq_nil.mp h).1
        · rw [← ht] at h; exact hhead c2 hc2ne hcs2 tail h
    rw [List.cons_append, cleanLoop_elem r a (c1 ++ tail) out d ha h1 h2,
      cleanLoop_copy r c1 hcs1]
    have hout : elemSep r out ++ [a] ++ c1 = elemSep r out ++ a :: c1 := by simp
    rw [hout]
    cases tail with
    | nil => simp [cleanLoop_true_nil, cleanLoop_false_nil]
    | cons b tl =>
      have hb : b = '/' := by simpa using htail
      subst hb
      rw [cleanLoop_true_slash]
      simp

/-- The loop of `Clean` on names joined by separators, rooted or not. -/
theorem cleanLoop_names_any (r : Bool) (names : List (List Char))
    (hn : ∀ c ∈ names, IsName c) :
    ∀ (out t : List Char) (d : Nat), (t = [] ∨ t = ['/']) →
      filepath.cleanLoop r false (joinSlash names ++ t) out d =
        names.foldl (fun o c => elemSep r o ++ c) out := by
  induction names with
  | nil =>
    intro out t d ht
    rcases ht with h | h
    · simp [h, joinSlash, cleanLoop_false_nil]
    · simp [h, joinSlash, cleanLoop_false_slash, cleanLoop_false_nil]
  | cons c cs ih =>
    intro out t d ht
    obtain ⟨tail, h1, h2, t2, ht2, h3⟩ := joinSlash_cons_append c cs t ht
    rw [h1, cleanLoop_name_step_any r c tail out d (hn c (by simp)) h2, h3,
      ih (fun x hx => hn x (by simp [hx])) _ t2 d ht2]
    simp

theorem foldl_elemSep_rooted (names : List (List Char)) :
    ∀ P : List (List Char), (∀ c ∈ P ++ names, c ≠ []) →
      names.foldl (fun o c => elemSep true o ++ c) ('/' :: joinSlash P) =
        '/' :: joinSlash (P ++ names) := by
  induction names with
  | nil => intro P _; simp
  | cons c names ih =>
    intro P h
    have hP : ∀ c ∈ P, c ≠ [] := fun x hx => h x (by simp [hx])
    rw [List.foldl_cons, elemSep_rooted P c hP, ih (P ++ [c]) (by simpa using h)]
    simp

/-- `Clean` leaves a rooted path in normal form as it is, and drops one trailing
separator after it. -/
theorem cleanChars_rooted_joinSlash (names : List (List Char))
    (hn : ∀ c ∈ names, IsName c) (t : List Char) (ht : t = [] ∨ t = ['/']) :
    filepath.cleanChars ('/' :: (joinSlash names ++ t)) = '/' :: joinSlash names := by
  have h := cleanLoop_names_any true names hn ['/'] t 1 ht
  have hf := foldl_elemSep_rooted names [] (by simpa using fun c hc => (hn c hc).1)
  simp only [joinSlash, List.nil_append] at hf
  simp [filepath.cleanChars, h, hf]

theorem rooted_snoc_split (P : List (List Char)) (c : List Char) :
    ∃ q, '/' :: joinSlash (P ++ [c]) = (q ++ ['/']) ++ c ∧
      ((P = [] ∧ q = []) ∨ (P ≠ [] ∧ q = '/' :: joinSlash P)) := by
  by_cases hP : P = []
  · exact ⟨[], by simp [hP, joinSlash], Or.inl ⟨hP, rfl⟩⟩
  · exact ⟨'/' :: joinSlash P, by rw [joinSlash_snoc P c hP]; simp, Or.inr ⟨hP, rfl⟩⟩

theorem Base_rooted_snoc (P : List (List Char)) (c : List Char)
    (hc0 : c ≠ []) (hcs : '/' ∉ c) :
    filepath.Base ⟨'/' :: joinSlash (P ++ [c])⟩ = ⟨c⟩ := by
  obtain ⟨q, hsplit, _⟩ := rooted_snoc_split P c
  have hne : (⟨'/' :: joinSlash (P ++ [c])⟩ : String) ≠ "" := by
    intro h
    have := congrArg String.data h
    simp at this
  unfold filepath.Base
  rw [if_neg hne]
  simp only [hsplit]
  rw [reverse_dropWhile_slash (q ++ ['/']) c hc0 hcs,
    reverse_takeWhile_elem (q ++ ['/']) c hcs (Or.inr ⟨q, rfl⟩)]
  simp [hc0]

theorem Dir_rooted_snoc (P : List (List Char)) (c : List Char) (hcs : '/' ∉ c)
    (hP : ∀ x ∈ P, IsName x) :
    filepath.Dir ⟨'/' :: joinSlash (P ++ [c])⟩ = ⟨'/' :: joinSlash P⟩ := by
  obtain ⟨q, hsplit, hq⟩ := rooted_snoc_split P c
  unfold filepath.Dir
  simp only [hsplit]
  rw [reverse_dropWhile_elem (q ++ ['/']) c hcs (Or.inr ⟨q, rfl⟩)]
  rcases hq with ⟨h1, h2⟩ | ⟨h1, h2⟩
  · subst h1 h2
    have := cleanChars_rooted_joinSlash [] (by simp) [] (Or.inl rfl)
    simp only [joinSlash, List.append_nil] at this
    simp only [List.nil_append, this]
    rfl
  · subst h2
    have := cleanChars_rooted_joinSlash P hP ['/'] (Or.inr rfl)
    simp only [List.cons_append]
    rw [this]

/-- On a rooted path in normal form the loop of `sepFilePath` takes the names
from the last to the first and then stays at `/`: it does not end. -/
theorem sepFilePath_loop_rooted (fuel : Nat) :
    ∀ names : List (List Char), (∀ c ∈ names, IsName c) → ∀ ret : List String,
      sepFilePath.loop fuel ⟨'/' :: joinSlash names⟩ ret = none := by
  induction fuel with
  | zero => intro names _ ret; rfl
  | succ fuel ih =>
    intro names hn ret
    rcases eq_nil_or_snoc names with hnil | ⟨P, c, hx⟩
    · subst hnil
      have hp : (⟨'/' :: joinSlash []⟩ : String) = "/" := rfl
      rw [hp]
      exact sepFilePath_loop_root (fuel + 1) ret
    · subst hx
      obtain ⟨hc0, hcs, hc1, _⟩ := hn c (by simp)
      have hP : ∀ x ∈ P, IsName x := fun x hx => hn x (by simp [hx])
      have hbase : (⟨c⟩ : String) ≠ "." := fun h => hc1 (congrArg String.data h)
      rw [sepFilePath.loop, Base_rooted_snoc P c hc0 hcs, Dir_rooted_snoc P c hcs hP]
      simp only [hbase, if_false]
      exact ih P hP _

/-- On a cleaned rooted path `sepFilePath` does not return. -/
theorem sepFilePath_cleaned_rooted (p : String) (hclean : filepath.Clean p = p)
    (hroot : p.data.head? = some '/') : ∀ fuel, sepFilePath fuel p = none := by
  intro fuel
  have hdata : filepath.cleanChars p.data = p.data := congrArg String.data hclean
  obtain ⟨names, hn, h⟩ := cleanChars_rooted_normal p.data hroot
  have hp : p = ⟨'/' :: joinSlash names⟩ := String.ext (by rw [← hdata, h])
  unfold sepFilePath
  rw [hp, sepFilePath_loop_rooted fuel names hn []]

/-- On a cleaned path that is not rooted, what `sepFilePath` returns: `[.]`, or
the components of the path, which are `..` elements followed by names. -/
theorem sepFilePath_cleaned_relative_comps (p : String) (hclean : filepath.Clean p = p)
    (hrel : p.data.head? ≠ some '/') :
    ∃ fuel segs, (∀ fuel2, fuel ≤ fuel2 → sepFilePath fuel2 p = some segs) ∧
      (segs = ["."] ∨
        ∃ comps, NormalComps comps ∧ comps ≠ [] ∧ segs = comps.map String.mk) := by
  have hdata : filepath.cleanChars p.data = p.data := congrArg String.data hclean
  rcases cleanChars_normal p.data hrel with h | ⟨comps, hN, hne, h⟩
  · have hp : p = "." := String.ext (by rw [← hdata, h])
    subst hp
    exact ⟨1, ["."], sepFilePath_mono 1 "." ["."] (by decide), Or.inl rfl⟩
  · have hp : p = pathOf comps := by
      simp only [pathOf, hne, if_false]
      exact String.ext (by rw [← hdata, h])
    have hloop := sepFilePath_loop_normal comps hN []
    have hs : sepFilePath (comps.length + 1) p = some (comps.map String.mk) := by
      unfold sepFilePath
      rw [hp, hloop]
      simp [hne]
    exact ⟨comps.length + 1, comps.map String.mk, sepFilePath_mono _ _ _ hs,
      Or.inr ⟨comps, hN, hne, rfl⟩⟩

/-- Whatever `sepFilePath` returns on a cleaned path has at least one component,
no empty component, and the component `.` only as the whole result `[.]`; on
every cleaned path that is not rooted it does return. -/
theorem sepFilePath_result_well_formed (p : String) (hclean : filepath.Clean p = p) :
    (∀ fuel segs, sepFilePath fuel p = some segs →
      1 ≤ segs.length ∧ (∀ s ∈ segs, s ≠ "") ∧ ("." ∈ segs → segs = ["."])) ∧
    (p.data.head? ≠ some '/' → ∃ fuel segs, sepFilePath fuel p = some segs) := by
  by_cases hroot : p.data.head? = some '/'
  · constructor
    · intro fuel segs h
      rw [sepFilePath_cleaned_rooted p hclean hroot fuel] at h
      cases h
    · intro h; exact absurd hroot h
  · obtain ⟨fuel0, segs0, hret, hshape⟩ := sepFilePath_cleaned_relative_comps p hclean hroot
    constructor
    · intro fuel segs h
      have h1 := sepFilePath_mono fuel p segs h (max fuel fuel0) (Nat.le_max_left _ _)
      have h2 := hret (max fuel fuel0) (Nat.le_max_right _ _)
      have heq : segs = segs0 := Option.some.inj (h1.symm.trans h2)
      subst heq
      rcases hshape with h | ⟨comps, hN, hne, h⟩
      · subst h
        refine ⟨by simp, ?_, fun _ => rfl⟩
        intro s hs
        simp only [List.mem_singleton] at hs
        subst hs
        decide
      · subst h
        refine ⟨?_, ?_, ?_⟩
        · have := List.length_pos.mpr hne
          simpa using this
        · intro s hs
          obtain ⟨c, hc, rfl⟩ := List.mem_map.mp hs
          intro h0
          exact (normalComps_elem hN c hc).1 (congrArg String.data h0)
        · intro hdot
          obtain ⟨c, hc, hcd⟩ := List.mem_map.mp hdot
          exact absurd (congrArg String.data hcd) (normalComps_elem hN c hc).2.2
    · intro _
      exact ⟨fuel0, segs0, hret fuel0 (Nat.le_refl _)⟩

/-- On a relative path in normal form each `Dir` removes the last component, down
to `.`. -/
theorem Dir_iterate_normal (comps : List (List Char)) :
    NormalComps comps → filepath.Dir^[comps.length] (pathOf comps) = "." := by
  induction comps using List.reverseRecOn with
  | nil => intro _; rfl
  | append_singleton P c ih =>
    intro h
    obtain ⟨_, hcs, _⟩ := normalComps_elem h c (by simp)
    have hP := normalComps_init h
    have hpath : pathOf (P ++ [c]) = ⟨joinSlash (P ++ [c])⟩ := by simp [pathOf]
    rw [List.length_append, List.length_singleton, Function.iterate_succ_apply, hpath,
      Dir_joinSlash_snoc P c hcs hP]
    exact ih hP

/-- On a rooted path in normal form each `Dir` removes the last name, down to `/`. -/
theorem Dir_iterate_rooted (names : List (List Char)) :
    (∀ c ∈ names, IsName c) →
      filepath.Dir^[names.length] ⟨'/' :: joinSlash names⟩ = "/" := by
  induction names using List.reverseRecOn with
  | nil => intro _; rfl
  | append_singleton P c ih =>
    intro hn
    have hP : ∀ x ∈ P, IsName x := fun x hx => hn x (by simp [hx])
    rw [List.length_append, List.length_singleton, Function.iterate_succ_apply,
      Dir_rooted_snoc P c (hn c (by simp)).2.1 hP]
    exact ih hP

/-- The name `/` is a fixed point of `Dir`. -/
theorem Dir_iterate_root (m : Nat) : filepath.Dir^[m] "/" = "/" := by
  induction m with
  | zero => rfl
  | succ m ih =>
    rw [Function.iterate_succ_apply, show filepath.Dir "/" = "/" by decide]
    exact ih

/-- C17. On a cleaned path the loop of `sepFilePath` ends, for some number of
iterations, exactly when the path is not rooted. On a cleaned path that is not
rooted the name reaches `.` after finitely many `Dir` steps. On a rooted one the
name reaches `/` and stays there, with base `/`, which is not `.`; `Open` and
`ReadDir` on such a name do not return, whatever the bound on the iterations. -/
theorem sepFilePath_ends_iff_not_rooted (p : String) (hclean : filepath.Clean p = p) :
    ((∃ fuel segs, sepFilePath fuel p = some segs) ↔ p.data.head? ≠ some '/') ∧
    (p.data.head? ≠ some '/' → ∃ k, filepath.Dir^[k] p = ".") ∧
    (p.data.head? = some '/' →
      (∃ k, ∀ j, k ≤ j →
        filepath.Dir^[j] p = "/" ∧ filepath.Base (filepath.Dir^[j] p) = "/") ∧
      filepath.Base "/" ≠ "." ∧
      ∀ (E : Env FSys) (V : FSys) (fuel : Nat),
        FS.Open E V fuel p = none ∧ FS.ReadDir E V fuel p = none) := by
  have hdata : filepath.cleanChars p.data = p.data := congrArg String.data hclean
  refine ⟨⟨?_, ?_⟩, ?_, ?_⟩
  · rintro ⟨fuel, segs, h⟩ hroot
    rw [sepFilePath_cleaned_rooted p hclean hroot fuel] at h
    cases h
  · intro hrel
    obtain ⟨fuel, segs, h, _⟩ := sepFilePath_cleaned_relative p hclean hrel
    exact ⟨fuel, segs, h fuel (Nat.le_refl _)⟩
  · intro hrel
    rcases cleanChars_normal p.data hrel with h | ⟨comps, hN, hne, h⟩
    · have hp : p = "." := String.ext (by rw [← hdata, h])
      exact ⟨0, hp⟩
    · have hp : p = pathOf comps := by
        simp only [pathOf, hne, if_false]
        exact String.ext (by rw [← hdata, h])
      exact ⟨comps.length, by rw [hp]; exact Dir_iterate_normal comps hN⟩
  · intro hroot
    obtain ⟨names, hn, h⟩ := cleanChars_rooted_normal p.data hroot
    have hp : p = ⟨'/' :: joinSlash names⟩ := String.ext (by rw [← hdata, h])
    refine ⟨⟨names.length, ?_⟩, by decide, ?_⟩
    · intro j hj
      obtain ⟨m, rfl⟩ : ∃ m, j = m + names.length := ⟨j - names.length, by omega⟩
      have : filepath.Dir^[m + names.length] p = "/" := by
        rw [Function.iterate_add_apply, hp, Dir_iterate_rooted names hn, Dir_iterate_root]
      rw [this]
      exact ⟨rfl, by decide⟩
    · intro E V fuel
      simp [FS.Open, FS.ReadDir, hclean, sepFilePath_cleaned_rooted p hclean hroot fuel]

/-- C17 at the cleaned rooted path `/a`. -/
theorem sepFilePath_ends_iff_not_rooted_witness :
    ((∃ fuel segs, sepFilePath fuel "/a" = some segs) ↔
      ("/a" : String).data.head? ≠ some '/') ∧
    (("/a" : String).data.head? ≠ some '/' → ∃ k, filepath.Dir^[k] "/a" = ".") ∧
    (("/a" : String).data.head? = some '/' →
      (∃ k, ∀ j, k ≤ j →
        filepath.Dir^[j] "/a" = "/" ∧ filepath.Base (filepath.Dir^[j] "/a") = "/") ∧
      filepath.Base "/" ≠ "." ∧
      ∀ (E : Env Nat) (V : Nat) (fuel : Nat),
        FS.Open E V fuel "/a" = none ∧ FS.ReadDir E V fuel "/a" = none) :=
  sepFilePath_ends_iff_not_rooted "/a" (by decide)

/-! ## Listing a plain file -/

/-- When the last invocation of `readDir` has one segment, the result of `readDir`
is the result of that invocation. -/
theorem readDir_at_last_invocation (E : Env FSys) (n : Nat) :
    ∀ (k : CallKind) (V : FSys) (paths : List String), paths.length = n →
      ∀ (c : Call FSys) (s : String),
        (FS.walk E (readDirWrapper E) k V paths).2.getLast? = some c → c.paths = [s] →
        FS.readDir E V paths = FS.readDir E c.currentFS [s] := by
  induction n with
  | zero =>
    intro k V paths h c s hl hc
    have : paths = [] := List.length_eq_zero.mp h
    subst this
    rw [FS.walk] at hl
    simp only [List.getLast?_singleton, Option.some.injEq] at hl
    subst hl
    simp at hc
  | succ n ih =>
    intro k V paths h c s hl hc
    match paths, h with
    | [p0], _ =>
      rw [FS.walk] at hl
      simp only [List.getLast?_singleton, Option.some.injEq] at hl
      subst hl
      simp only [List.cons.injEq, and_true] at hc
      subst hc
      rfl
    | p0 :: p1 :: rest, h =>
      have hl2 : ∀ q : String, (q :: rest).length = n := by
        intro q; simpa using h
      have hstop : [(⟨k, V, p0 :: p1 :: rest⟩ : Call FSys)].getLast? = some c → False := by
        intro hr
        simp only [List.getLast?_singleton, Option.some.injEq] at hr
        subst hr
        simp at hc
      have hrec : ∀ (k2 : CallKind) (V2 : FSys) (q : String),
          ((⟨k, V, p0 :: p1 :: rest⟩ : Call FSys) ::
              (FS.walk E (readDirWrapper E) k2 V2 (q :: rest)).2).getLast? = some c →
          FS.readDir E V2 (q :: rest) = FS.readDir E c.currentFS [s] := by
        intro k2 V2 q hr
        obtain ⟨_, tl, h2, _⟩ :=
          walk_trace E (readDirWrapper E) n k2 V2 (q :: rest) (hl2 q) (by simp)
        have : (FS.walk E (readDirWrapper E) k2 V2 (q :: rest)).2.getLast? = some c := by
          simp only [h2, List.getLast?_cons_cons] at hr
          rw [h2]; exact hr
        exact ih k2 V2 (q :: rest) (hl2 q) c s this hc
      rw [FS.walk] at hl
      conv_lhs => rw [FS.readDir]
      rcases hd : getIsDir E V p0 with ⟨b, _ | e⟩
      · cases b
        · rcases hk : getKind E V p0 with ⟨kd, _ | e⟩
          · by_cases hz : kd = matchers.TypeZip
            · cases hr : zipNewReader E V p0 with
              | error e =>
                simp only [hd, hk, hz, hr, if_true] at hl
                exact (hstop hl).elim
              | ok zr =>
                simp only [hd, hk, hz, hr, if_true] at hl
                simpa [hz] using hrec .archive zr p1 hl
            · simp only [hd, hk, hz, if_false] at hl
              exact (hstop hl).elim
          · simp only [hd, hk] at hl
            exact (hstop hl).elim
        · simp only [hd] at hl
          simpa using hrec .dirMerge V (p0 ++ "/" ++ p1) hl
      · simp only [hd] at hl
        exact (hstop hl).elim

/-- C6 at the plain file `note.txt` and at `root.zip/cat1744.jpg` of the store with
the lax lister: both are non-directories that do not classify as an archive, and
`readDir` and `ReadDir` return the empty listing of the lister, without error. -/
theorem readDir_plain_file_with_lax_lister :
    getIsDir lax.env 0 "note.txt" = (false, none) ∧
      getKind lax.env 0 "note.txt" = (types.Unknown, none) ∧
      FS.readDir lax.env 0 ["note.txt"] = some (.ok []) ∧
      FS.ReadDir lax.env 0 2 "note.txt" = some (some (.ok [])) ∧
      getIsDir lax.env 1 "cat1744.jpg" = (false, none) ∧
      getKind lax.env 1 "cat1744.jpg" = (types.Unknown, none) ∧
      FS.readDir lax.env 0 ["root.zip", "cat1744.jpg"] = some (.ok []) ∧
      FS.ReadDir lax.env 0 3 "root.zip/cat1744.jpg" = some (some (.ok [])) := by
  have h1 : getIsDir lax.env 0 "note.txt" = (false, none) := rfl
  have h2 : getKind lax.env 0 "note.txt" = (types.Unknown, none) := rfl
  have h3 : getIsDir lax.env 0 "root.zip" = (false, none) := rfl
  have h4 : getKind lax.env 0 "root.zip" = (matchers.TypeZip, none) := rfl
  have h5 : zipNewReader lax.env 0 "root.zip" = .ok 1 := rfl
  have h6 : getIsDir lax.env 1 "cat1744.jpg" = (false, none) := rfl
  have h7 : getKind lax.env 1 "cat1744.jpg" = (types.Unknown, none) := rfl
  have hne : types.Unknown ≠ matchers.TypeZip := by decide
  have s1 : sepFilePath 2 (filepath.Clean "note.txt") = some ["note.txt"] := by decide
  have s2 : sepFilePath 3 (filepath.Clean "root.zip/cat1744.jpg") =
      some ["root.zip", "cat1744.jpg"] := by decide
  have r1 : FS.readDir lax.env 0 ["note.txt"] = some (.ok []) := by
    rw [FS.readDir]
    simp only [h1, h2, hne, if_false]
    rfl
  have r2 : FS.readDir lax.env 0 ["root.zip", "cat1744.jpg"] = some (.ok []) := by
    rw [FS.readDir]
    simp only [h3, h4, h5, if_true]
    rw [FS.readDir]
    simp only [h6, h7, hne, if_false]
    rfl
  refine ⟨h1, h2, r1, ?_, h6, h7, r2, ?_⟩
  · rw [FS.ReadDir, s1, Option.map_some', r1]
  · rw [FS.ReadDir, s2, Option.map_some', r2]

/-- C6, amended. When the last invocation of `readDir` on a path has the one
segment `n` in the view `T`, and `n` is a plain file of `T` (a non-directory that
does not classify as an archive), `readDir` returns what `readDirWrapper` returns
for `n` in `T`: the error of the lister of `T` for `n`, unchanged and with no
listing, when the lister refuses `n`, and the listing of the lister, wrapped entry
by entry, when it does not. -/
theorem readDir_plain_file_returns_listers_answer (E : Env FSys) (V T : FSys)
    (paths : List String) (k : CallKind) (n : String)
    (hlast : (FS.walk E (readDirWrapper E) .initial V paths).2.getLast? = some ⟨k, T, [n]⟩)
    (hplain : getIsDir E T n = (false, none))
    (hkind : (getKind E T n).1 ≠ matchers.TypeZip) :
    FS.readDir E V paths = some (readDirWrapper E T n) ∧
      (∀ e, E.ReadDir T n = .error e → FS.readDir E V paths = some (.error e)) ∧
      (∀ entries, E.ReadDir T n = .ok entries →
        FS.readDir E V paths = some (.ok (entries.map (wrapEntry E T n)))) := by
  have hlastcall := readDir_at_last_invocation E paths.length .initial V paths rfl
    ⟨k, T, [n]⟩ n hlast rfl
  have hterm : FS.readDir E T [n] = some (readDirWrapper E T n) := by
    have hok := getKind_ok_of_getIsDir_ok E T n false hplain
    cases hk : getKind E T n with
    | mk kind err =>
      rw [hk] at hok hkind
      simp only at hok hkind
      subst hok
      rw [FS.readDir]
      simp [hplain, hk, hkind]
  have hmain : FS.readDir E V paths = some (readDirWrapper E T n) := by
    rw [hlastcall]; exact hterm
  refine ⟨hmain, ?_, ?_⟩
  · intro e he
    rw [hmain]; simp [readDirWrapper, he]
  · intro entries he
    rw [hmain]; simp [readDirWrapper, he]

/-- C6, amended, at `root.zip/cat1744.jpg` of the demo store, whose lister refuses
the file. -/
theorem readDir_plain_file_returns_listers_answer_witness :
    FS.readDir demo.env 0 ["root.zip", "cat1744.jpg"] =
      some (.error "readdir cat1744.jpg: not a directory") :=
  (readDir_plain_file_returns_listers_answer demo.env 0 1 ["root.zip", "cat1744.jpg"]
    .archive "cat1744.jpg"
    (by
      have h3 : getIsDir demo.env 0 "root.zip" = (false, none) := rfl
      have h4 : getKind demo.env 0 "root.zip" = (matchers.TypeZip, none) := rfl
      have h5 : zipNewReader demo.env 0 "root.zip" = .ok 1 := rfl
      rw [FS.walk]
      simp only [h3, h4, h5, if_true]
      rw [FS.walk]
      rfl)
    rfl (by decide)).2.1 "readdir cat1744.jpg: not a directory" rfl

/-! ## What a call writes into the segment sequence -/

/-- Which elements of the backing array a call writes: the element at the first
index of the `i + 1`-th invocation is the join of the element before it with its
old value when that invocation was made by the directory-merge step, and is its
old value when it was made by the archive step, or when there is no such
invocation. -/
theorem walkInPlace_writes {α : Type} (E : Env FSys)
    (term : FSys → String → Except String α) (d : Nat) :
    ∀ (k : CallKind) (V : FSys) (mem : List String) (off : Nat), mem.length - off = d →
      ∀ i : Nat,
        (∀ c, (FS.walk E term k V (mem.drop off)).2[i + 1]? = some c → c.kind = .dirMerge →
          ∃ a b, (FS.walkInPlace E term V mem off).2[off + i]? = some a ∧
            mem[off + i + 1]? = some b ∧
            (FS.walkInPlace E term V mem off).2[off + i + 1]? = some (a ++ "/" ++ b)) ∧
        (∀ c, (FS.walk E term k V (mem.drop off)).2[i + 1]? = some c → c.kind = .archive →
          (FS.walkInPlace E term V mem off).2[off + i + 1]? = mem[off + i + 1]?) ∧
        ((FS.walk E term k V (mem.drop off)).2[i + 1]? = none →
          (FS.walkInPlace E term V mem off).2[off + i + 1]? = mem[off + i + 1]?) := by
  induction d using Nat.strong_induction_on with
  | _ d ih =>
    intro k V mem off hd i
    -- a call that makes no recursive call: one invocation, nothing written
    have hstop : ∀ (tr : List (Call FSys)) (after : List String),
        tr.length = 1 → after = mem →
        (∀ c, tr[i + 1]? = some c → c.kind = .dirMerge →
          ∃ a b, after[off + i]? = some a ∧ mem[off + i + 1]? = some b ∧
            after[off + i + 1]? = some (a ++ "/" ++ b)) ∧
        (∀ c, tr[i + 1]? = some c → c.kind = .archive →
          after[off + i + 1]? = mem[off + i + 1]?) ∧
        (tr[i + 1]? = none → after[off + i + 1]? = mem[off + i + 1]?) := by
      intro tr after htr hafter
      have hnone : tr[i + 1]? = none := List.getElem?_eq_none (by omega)
      subst hafter
      refine ⟨?_, ?_, fun _ => rfl⟩
      · intro c hc; rw [hnone] at hc; cases hc
      · intro c hc; rw [hnone] at hc; cases hc
    -- a call that makes the recursive call of kind `k2` on `mem2` from `off + 1`
    have hrec : ∀ (k2 : CallKind) (V2 : FSys) (mem2 : List String) (c0 : Call FSys),
        off + 1 < mem.length → mem2.length = mem.length →
        (∀ j : Nat, j ≠ off + 1 → mem2[j]? = mem[j]?) →
        (k2 = .dirMerge → ∃ a b, mem[off]? = some a ∧ mem[off + 1]? = some b ∧
          mem2[off + 1]? = some (a ++ "/" ++ b)) →
        (k2 = .archive → mem2[off + 1]? = mem[off + 1]?) →
        (k2 = .dirMerge ∨ k2 = .archive) →
        (∀ c, (c0 :: (FS.walk E term k2 V2 (mem2.drop (off + 1))).2)[i + 1]? = some c →
            c.kind = .dirMerge →
          ∃ a b, (FS.walkInPlace E term V2 mem2 (off + 1)).2[off + i]? = some a ∧
            mem[off + i + 1]? = some b ∧
            (FS.walkInPlace E term V2 mem2 (off + 1)).2[off + i + 1]? =
              some (a ++ "/" ++ b)) ∧
        (∀ c, (c0 :: (FS.walk E term k2 V2 (mem2.drop (off + 1))).2)[i + 1]? = some c →
            c.kind = .archive →
          (FS.walkInPlace E term V2 mem2 (off + 1)).2[off + i + 1]? = mem[off + i + 1]?) ∧
        ((c0 :: (FS.walk E term k2 V2 (mem2.drop (off + 1))).2)[i + 1]? = none →
          (FS.walkInPlace E term V2 mem2 (off + 1)).2[off + i + 1]? =
            mem[off + i + 1]?) := by
      intro k2 V2 mem2 c0 hlt2 hlen hother hmerge harch hk2
      have hd2 : mem2.length - (off + 1) < d := by omega
      obtain ⟨_, m2, _⟩ :=
        walkInPlace_mem E term (mem2.length - (off + 1)) V2 mem2 (off + 1) rfl
      have hdrop : mem2.drop (off + 1) ≠ [] := by
        intro h0
        have := List.drop_eq_nil_iff.mp h0
        omega
      obtain ⟨_, tl, htr, _, _, _⟩ :=
        walk_trace E term (mem2.drop (off + 1)).length k2 V2 (mem2.drop (off + 1)) rfl hdrop
      simp only [List.getElem?_cons_succ]
      cases i with
      | zero =>
        have h0 : (FS.walk E term k2 V2 (mem2.drop (off + 1))).2[0]? =
            some ⟨k2, V2, mem2.drop (off + 1)⟩ := by rw [htr]; simp
        simp only [h0, Option.some.injEq, Nat.add_zero]
        refine ⟨?_, ?_, fun h => by cases h⟩
        · intro c hc hkind
          subst hc
          obtain ⟨a, b, ha, hb, hab⟩ := hmerge hkind
          exact ⟨a, b, by rw [m2 off (by omega), hother off (by omega), ha], hb,
            by rw [m2 (off + 1) (Nat.le_refl _), hab]⟩
        · intro c hc hkind
          subst hc
          rw [m2 (off + 1) (Nat.le_refl _), harch hkind]
      | succ i2 =>
        obtain ⟨r1, r2, r3⟩ :=
          ih (mem2.length - (off + 1)) hd2 k2 V2 mem2 (off + 1) rfl i2
        have e1 : off + (i2 + 1) = off + 1 + i2 := by omega
        have hm : mem[off + 1 + i2 + 1]? = mem2[off + 1 + i2 + 1]? :=
          (hother _ (by omega)).symm
        rw [e1, hm]
        exact ⟨r1, r2, r3⟩
    rw [FS.walkInPlace]
    by_cases h1 : mem.length ≤ off
    · rw [if_pos h1, List.drop_eq_nil_of_le h1, FS.walk]
      exact hstop _ _ rfl rfl
    · rw [if_neg h1]
      have hlt : off < mem.length := Nat.lt_of_not_le h1
      by_cases h2 : off + 1 = mem.length
      · rw [if_pos h2, drop_eq_getD_cons mem off hlt,
          List.drop_eq_nil_of_le (Nat.le_of_eq h2.symm), FS.walk]
        exact hstop _ _ rfl rfl
      · rw [if_neg h2]
        have hlt2 : off + 1 < mem.length := by omega
        rw [drop_eq_getD_cons mem off hlt, drop_eq_getD_cons mem (off + 1) hlt2, FS.walk]
        rcases hg : getIsDir E V (mem.getD off "") with ⟨b, _ | e⟩
        · cases b
          · rcases hk : getKind E V (mem.getD off "") with ⟨kd, _ | e⟩
            · by_cases hz : kd = matchers.TypeZip
              · cases hr : zipNewReader E V (mem.getD off "") with
                | error e =>
                  dsimp only
                  rw [if_pos hz, if_pos hz]
                  exact hstop _ _ rfl rfl
                | ok zr =>
                  dsimp only
                  rw [if_pos hz, if_pos hz]
                  dsimp only
                  have := hrec .archive zr mem ⟨k, V, mem.getD off "" ::
                    mem.getD (off + 1) "" :: mem.drop (off + 1 + 1)⟩ hlt2 rfl
                    (fun _ _ => rfl) (fun h => by cases h) (fun _ => rfl) (Or.inr rfl)
                  rw [drop_eq_getD_cons mem (off + 1) hlt2] at this
                  exact this
              · dsimp only
                rw [if_neg hz, if_neg hz]
                exact hstop _ _ rfl rfl
            · dsimp only
              exact hstop _ _ rfl rfl
          · dsimp only
            have := hrec .dirMerge V
              (mem.set (off + 1) (mem.getD off "" ++ "/" ++ mem.getD (off + 1) ""))
              ⟨k, V, mem.getD off "" :: mem.getD (off + 1) "" :: mem.drop (off + 1 + 1)⟩
              hlt2 (by simp)
              (fun j hj => by rw [List.getElem?_set_ne (Ne.symm hj)])
              (fun _ => ⟨mem.getD off "", mem.getD (off + 1) "",
                by rw [List.getD_eq_getElem mem "" hlt, List.getElem?_eq_getElem hlt],
                by rw [List.getD_eq_getElem mem "" hlt2, List.getElem?_eq_getElem hlt2],
                by rw [List.getElem?_set_self hlt2]⟩)
              (fun h => by cases h) (Or.inl rfl)
            rw [drop_set_succ mem off _ hlt2] at this
            exact this
        · cases b <;> exact hstop _ _ rfl rfl

/-- How each invocation after the first was made: by the directory-merge step of
the invocation before it, whose first segment is a directory and whose view it
keeps, or by its archive step, whose first segment is a non-directory classified
as zip and opened as the view of the new invocation. -/
theorem walk_steps {α : Type} (E : Env FSys) (term : FSys → String → Except String α)
    (n : Nat) :
    ∀ (k : CallKind) (V : FSys) (paths : List String), paths.length = n →
      ∀ (i : Nat) (c0 c : Call FSys),
        (FS.walk E term k V paths).2[i]? = some c0 →
        (FS.walk E term k V paths).2[i + 1]? = some c →
        ∃ p0 p1 rest, c0.paths = p0 :: p1 :: rest ∧
          ((c.kind = .dirMerge ∧ getIsDir E c0.currentFS p0 = (true, none) ∧
              c.currentFS = c0.currentFS ∧ c.paths = (p0 ++ "/" ++ p1) :: rest) ∨
            (c.kind = .archive ∧ getIsDir E c0.currentFS p0 = (false, none) ∧
              (getKind E c0.currentFS p0).1 = matchers.TypeZip ∧
              zipNewReader E c0.currentFS p0 = .ok c.currentFS ∧ c.paths = p1 :: rest)) := by
  induction n with
  | zero =>
    intro k V paths h i c0 c _ h1
    have : paths = [] := List.length_eq_zero.mp h
    subst this
    rw [FS.walk] at h1
    simp at h1
  | succ n ih =>
    intro k V paths h i c0 c h0 h1
    match paths, h with
    | [p0], _ =>
      rw [FS.walk] at h1
      simp at h1
    | p0 :: p1 :: rest, h =>
      have hl : ∀ q : String, (q :: rest).length = n := by
        intro q; simpa using h
      have hstop : [(⟨k, V, p0 :: p1 :: rest⟩ : Call FSys)][i + 1]? = some c → False := by
        intro hh; simp at hh
      have hrec : ∀ (k2 : CallKind) (V2 : FSys) (q : String),
          ((⟨k, V, p0 :: p1 :: rest⟩ : Call FSys) ::
            (FS.walk E term k2 V2 (q :: rest)).2)[i]? = some c0 →
          ((⟨k, V, p0 :: p1 :: rest⟩ : Call FSys) ::
            (FS.walk E term k2 V2 (q :: rest)).2)[i + 1]? = some c →
          (i = 0 ∧ c0 = ⟨k, V, p0 :: p1 :: rest⟩ ∧ c = ⟨k2, V2, q :: rest⟩) ∨
          ∃ p0 p1 rest, c0.paths = p0 :: p1 :: rest ∧
            ((c.kind = .dirMerge ∧ getIsDir E c0.currentFS p0 = (true, none) ∧
                c.currentFS = c0.currentFS ∧ c.paths = (p0 ++ "/" ++ p1) :: rest) ∨
              (c.kind = .archive ∧ getIsDir E c0.currentFS p0 = (false, none) ∧
                (getKind E c0.currentFS p0).1 = matchers.TypeZip ∧
                zipNewReader E c0.currentFS p0 = .ok c.currentFS ∧
                c.paths = p1 :: rest)) := by
        intro k2 V2 q hh0 hh1
        obtain ⟨_, tl, h2, _⟩ := walk_trace E term n k2 V2 (q :: rest) (hl q) (by simp)
        cases i with
        | zero =>
          left
          simp only [List.getElem?_cons_zero, Option.some.injEq] at hh0
          simp only [List.getElem?_cons_succ, h2, List.getElem?_cons_zero,
            Option.some.injEq] at hh1
          exact ⟨rfl, hh0.symm, hh1.symm⟩
        | succ i2 =>
          right
          simp only [List.getElem?_cons_succ] at hh0 hh1
          exact ih k2 V2 (q :: rest) (hl q) i2 c0 c hh0 hh1
      rw [FS.walk] at h0 h1
      rcases hd : getIsDir E V p0 with ⟨b, _ | e⟩
      · cases b
        · rcases hk : getKind E V p0 with ⟨kd, _ | e⟩
          · by_cases hz : kd = matchers.TypeZip
            · cases hr : zipNewReader E V p0 with
              | error e =>
                simp only [hd, hk, hz, hr, if_true] at h1
                exact (hstop h1).elim
              | ok zr =>
                simp only [hd, hk, hz, hr, if_true] at h0 h1
                rcases hrec .archive zr p1 h0 h1 with ⟨_, rfl, rfl⟩ | h
                · exact ⟨p0, p1, rest, rfl, Or.inr ⟨rfl, hd, by rw [hk, hz], hr, rfl⟩⟩
                · exact h
            · simp only [hd, hk, hz, if_false] at h1
              exact (hstop h1).elim
          · simp only [hd, hk] at h1
            exact (hstop h1).elim
        · simp only [hd] at h0 h1
          rcases hrec .dirMerge V (p0 ++ "/" ++ p1) h0 h1 with ⟨_, rfl, rfl⟩ | h
          · exact ⟨p0, p1, rest, rfl, Or.inl ⟨rfl, hd, rfl, rfl⟩⟩
          · exact h
      · simp only [hd] at h1
        exact (hstop h1).elim

/-- C16, amended. `open` and `readDir`, run on the sequence that the caller holds,
return what they return on a fresh copy of it, and leave the sequence with its
length and its first element unchanged; each later element is unchanged or has
been overwritten with the join of the element that now precedes it, a separator
and its old value. Which of the two is decided by the step that made the
invocation starting at that element: the directory-merge step (first segment of
the caller a directory, same view) has overwritten it with the join, the archive
step (first segment of the caller a zip file, opened as the new view) has left it
as it was, and so it is where no invocation starts. -/
theorem merge_step_effect_on_callers_sequence (E : Env FSys) (V : FSys)
    (paths : List String) :
    (FS.walkInPlace E E.Open V paths 0).1 = FS.open E V paths ∧
      (FS.walkInPlace E (readDirWrapper E) V paths 0).1 = FS.readDir E V paths ∧
      (∀ after : List String,
        (after = (FS.walkInPlace E E.Open V paths 0).2 ∨
          after = (FS.walkInPlace E (readDirWrapper E) V paths 0).2) →
        after.length = paths.length ∧ after[0]? = paths[0]? ∧
        ∀ j : Nat, 0 < j →
          after[j]? = paths[j]? ∨
          ∃ a b, after[j - 1]? = some a ∧ paths[j]? = some b ∧
            after[j]? = some (a ++ "/" ++ b)) ∧
      (∀ (after : List String) (tr : List (Call FSys)),
        ((after = (FS.walkInPlace E E.Open V paths 0).2 ∧
            tr = (FS.walk E E.Open .initial V paths).2) ∨
          (after = (FS.walkInPlace E (readDirWrapper E) V paths 0).2 ∧
            tr = (FS.walk E (readDirWrapper E) .initial V paths).2)) →
        ∀ i : Nat,
          (∀ c, tr[i + 1]? = some c → c.kind = .dirMerge →
            ∃ a b, after[i]? = some a ∧ paths[i + 1]? = some b ∧
              after[i + 1]? = some (a ++ "/" ++ b)) ∧
          (∀ c, tr[i + 1]? = some c → c.kind = .archive → after[i + 1]? = paths[i + 1]?) ∧
          (tr[i + 1]? = none → after[i + 1]? = paths[i + 1]?) ∧
          (∀ c0 c, tr[i]? = some c0 → tr[i + 1]? = some c →
            ∃ p0 p1 rest, c0.paths = p0 :: p1 :: rest ∧
              ((c.kind = .dirMerge ∧ getIsDir E c0.currentFS p0 = (true, none) ∧
                  c.currentFS = c0.currentFS ∧ c.paths = (p0 ++ "/" ++ p1) :: rest) ∨
                (c.kind = .archive ∧ getIsDir E c0.currentFS p0 = (false, none) ∧
                  (getKind E c0.currentFS p0).1 = matchers.TypeZip ∧
                  zipNewReader E c0.currentFS p0 = .ok c.currentFS ∧
                  c.paths = p1 :: rest)))) := by
  have key : ∀ {α : Type} (term : FSys → String → Except String α) (i : Nat),
      (∀ c, (FS.walk E term .initial V paths).2[i + 1]? = some c → c.kind = .dirMerge →
        ∃ a b, (FS.walkInPlace E term V paths 0).2[i]? = some a ∧ paths[i + 1]? = some b ∧
          (FS.walkInPlace E term V paths 0).2[i + 1]? = some (a ++ "/" ++ b)) ∧
      (∀ c, (FS.walk E term .initial V paths).2[i + 1]? = some c → c.kind = .archive →
        (FS.walkInPlace E term V paths 0).2[i + 1]? = paths[i + 1]?) ∧
      ((FS.walk E term .initial V paths).2[i + 1]? = none →
        (FS.walkInPlace E term V paths 0).2[i + 1]? = paths[i + 1]?) := by
    intro α term i
    have := walkInPlace_writes E term (paths.length - 0) .initial V paths 0 rfl i
    simpa only [List.drop_zero, Nat.zero_add] using this
  refine ⟨?_, ?_, ?_, ?_⟩
  · rw [walkInPlace_result E E.Open (paths.length - 0) .initial V paths 0 rfl, List.drop_zero,
      walk_open E paths.length .initial V paths rfl]
  · rw [walkInPlace_result E (readDirWrapper E) (paths.length - 0) .initial V paths 0 rfl,
      List.drop_zero, walk_readDir E paths.length .initial V paths rfl]
  · rintro after (rfl | rfl)
    · obtain ⟨h1, h2, h3⟩ := walkInPlace_mem E E.Open (paths.length - 0) V paths 0 rfl
      exact ⟨h1, h2 0 (Nat.le_refl 0), h3⟩
    · obtain ⟨h1, h2, h3⟩ :=
        walkInPlace_mem E (readDirWrapper E) (paths.length - 0) V paths 0 rfl
      exact ⟨h1, h2 0 (Nat.le_refl 0), h3⟩
  · rintro after tr (⟨rfl, rfl⟩ | ⟨rfl, rfl⟩) i
    · obtain ⟨k1, k2, k3⟩ := key E.Open i
      exact ⟨k1, k2, k3, fun c0 c h0 h1 =>
        walk_steps E E.Open paths.length .initial V paths rfl i c0 c h0 h1⟩
    · obtain ⟨k1, k2, k3⟩ := key (readDirWrapper E) i
      exact ⟨k1, k2, k3, fun c0 c h0 h1 =>
        walk_steps E (readDirWrapper E) paths.length .initial V paths rfl i c0 c h0 h1⟩

/-! ## No sequence on rooted paths -/

/-- C12 at the cleaned paths `/` and `/a`: `Clean` leaves them unchanged, and for
no number of iterations does `sepFilePath` return a sequence on them, so there is
none with at least one component, without empty component and with `.` only as
the whole result. -/
theorem sepFilePath_yields_no_sequence_on_rooted :
    filepath.Clean "/" = "/" ∧ filepath.Clean "/a" = "/a" ∧
      (∀ fuel, ¬ ∃ segs, sepFilePath fuel "/" = some segs ∧ 1 ≤ segs.length ∧
        (∀ s ∈ segs, s ≠ "") ∧ ("." ∈ segs → segs = ["."])) ∧
      (∀ fuel, ¬ ∃ segs, sepFilePath fuel "/a" = some segs ∧ 1 ≤ segs.length ∧
        (∀ s ∈ segs, s ≠ "") ∧ ("." ∈ segs → segs = ["."])) := by
  have h1 : filepath.Clean "/" = "/" := by decide
  have h2 : filepath.Clean "/a" = "/a" := by decide
  refine ⟨h1, h2, ?_, ?_⟩
  · rintro fuel ⟨segs, h, _⟩
    rw [sepFilePath_cleaned_rooted "/" h1 (by decide) fuel] at h
    cases h
  · rintro fuel ⟨segs, h, _⟩
    rw [sepFilePath_cleaned_rooted "/a" h2 (by decide) fuel] at h
    cases h

end aifs
